import Mathlib

/-!
Verification of `crates/git-conventional-commit-rules/src/lib.rs`.

Rust string values are modelled shallowly as lists of Unicode scalar values
(`List Char`); Rust byte lengths (`str::len`) are modelled by summing the
UTF-8 size of each scalar, and every other string operation of the source
is translated to an executable function on `List Char` below, each with a
doc comment naming the Rust item it embeds.
-/

set_option maxHeartbeats 1000000

deriving instance DecidableEq for Except

namespace GitCCR

/-- Model of a Rust string slice: its sequence of Unicode scalar values. -/
abbrev Str := List Char

/-- Rust `char::is_whitespace`: the Unicode `White_Space` property, whose
25 code points are listed here explicitly by scalar value. -/
def isRustWs (c : Char) : Bool :=
  let n := c.toNat
  n == 0x09 || n == 0x0A || n == 0x0B || n == 0x0C || n == 0x0D ||
    n == 0x20 || n == 0x85 || n == 0xA0 || n == 0x1680 ||
    (decide (0x2000 ≤ n) && decide (n ≤ 0x200A)) ||
    n == 0x2028 || n == 0x2029 || n == 0x202F || n == 0x205F || n == 0x3000

/-- Rust `str::trim_start`. -/
def ltrim (s : Str) : Str := s.dropWhile isRustWs

/-- Rust `str::trim_end`. -/
def rtrim (s : Str) : Str := (ltrim s.reverse).reverse

/-- Rust `str::trim`. -/
def trim (s : Str) : Str := rtrim (ltrim s)

/-- Rust `str::len`: the UTF-8 byte length of the string. -/
def utf8Len (s : Str) : Nat := (s.map Char.utf8Size).sum

/-- Whether `p` is a prefix of `s` (Rust `str::starts_with` with a string
pattern, and the workhorse for `strip_prefix`, `find` and `split_once`). -/
def isPre : Str → Str → Bool
  | [], _ => true
  | _ :: _, [] => false
  | a :: p, b :: s => a == b && isPre p s

/-- Rust `str::strip_prefix` with a string pattern. -/
def dropPre (p s : Str) : Option Str :=
  if isPre p s then some (s.drop p.length) else none

/-- Rust `str::split_once`: split around the first occurrence of `sep`. -/
def splitOnce (sep : Str) : Str → Option (Str × Str)
  | [] => if isPre sep [] then some ([], []) else none
  | c :: s =>
    if isPre sep (c :: s) then some ([], (c :: s).drop sep.length)
    else
      match splitOnce sep s with
      | some (a, b) => some (c :: a, b)
      | none => none

/-- Rust `str::contains` with a string pattern. -/
def containsStr (pat s : Str) : Bool := (splitOnce pat s).isSome

/-- Split at every line feed, keeping empty pieces (the pieces of
`str::split('\n')`). -/
def splitLF : Str → List Str
  | [] => [[]]
  | c :: s =>
    let r := splitLF s
    if c = '\n' then [] :: r
    else (c :: r.headD []) :: r.tail

/-- Remove one trailing carriage return, if present. -/
def stripCR (l : Str) : Str :=
  if l.getLast? = some '\r' then l.dropLast else l

/-- The final piece of a line split: dropped when empty (a trailing line
feed or an empty input produces no extra line), kept verbatim otherwise. -/
def lastPiece : Option Str → List Str
  | some [] => []
  | none => []
  | some l => [l]

/-- Rust `str::lines`: the pieces between line feeds; the piece after the
last line feed is dropped when empty and is kept verbatim otherwise, and
every piece that was terminated by a line feed loses one trailing carriage
return. -/
def rsLines (s : Str) : List Str :=
  ((splitLF s).dropLast).map stripCR ++ lastPiece ((splitLF s).getLast?)

theorem dropWhile_length_le (p : Char → Bool) (l : Str) :
    (l.dropWhile p).length ≤ l.length := by
  induction l with
  | nil => simp
  | cons c s ih =>
    rw [List.dropWhile_cons]
    split
    · exact Nat.le_succ_of_le ih
    · simp

/-- Rust `str::split_whitespace`: the maximal runs of non-whitespace.
(Written as a one-pass structural recursion; `splitWs_cons_word` below
recovers the take-the-whole-word reading.) -/
def splitWs : Str → List Str
  | [] => []
  | c :: s =>
    if isRustWs c then splitWs s
    else
      match s, splitWs s with
      | [], _ => [[c]]
      | d :: _, r =>
        if isRustWs d then [c] :: r
        else
          match r with
          | [] => [[c]]
          | w :: ws => (c :: w) :: ws

/-- Rust `[&str]::join(sep)`. -/
def joinSep (sep : Str) : List Str → Str
  | [] => []
  | [x] => x
  | x :: xs => x ++ sep ++ joinSep sep xs

/-- Fuel-bounded core of `replaceAll`.  Every step consumes at least one
character of the input, so any fuel of at least the input's length computes
the untruncated result (`replaceAll_cons` below recovers the direct
recurrence). -/
def replaceAllAux (pat rep : Str) : Nat → Str → Str
  | _, [] => []
  | 0, s => s
  | fuel + 1, c :: s =>
    if pat ≠ [] ∧ isPre pat (c :: s) then
      rep ++ replaceAllAux pat rep fuel ((c :: s).drop pat.length)
    else c :: replaceAllAux pat rep fuel s

/-- Rust `str::replace(pat, rep)` on a nonempty string pattern: replace the
non-overlapping occurrences of `pat` left to right.  (For the empty pattern
Rust would interleave `rep` between the characters; every call site in the
source passes a nonempty pattern, and this model returns `s` unchanged.) -/
def replaceAll (pat rep s : Str) : Str := replaceAllAux pat rep s.length s

theorem replaceAllAux_fuel {pat rep : Str} :
    ∀ (f₁ : Nat) {f₂ : Nat} {s : Str}, s.length ≤ f₁ → s.length ≤ f₂ →
      replaceAllAux pat rep f₁ s = replaceAllAux pat rep f₂ s := by
  intro f₁
  induction f₁ with
  | zero =>
    intro f₂ s h1 _
    have : s = [] := List.eq_nil_of_length_eq_zero (Nat.le_zero.mp h1)
    subst this
    cases f₂ <;> rfl
  | succ f ih =>
    intro f₂ s h1 h2
    cases s with
    | nil => cases f₂ <;> rfl
    | cons c t =>
      cases f₂ with
      | zero => simp at h2
      | succ g =>
        simp only [replaceAllAux]
        split
        · next hcond =>
          have hp : 1 ≤ pat.length := List.length_pos.mpr hcond.1
          have hd : ((c :: t).drop pat.length).length ≤ f := by
            simp only [List.length_drop, List.length_cons]
            simp only [List.length_cons] at h1
            omega
          have hd2 : ((c :: t).drop pat.length).length ≤ g := by
            simp only [List.length_drop, List.length_cons]
            simp only [List.length_cons] at h2
            omega
          rw [ih hd hd2]
        · have ht : t.length ≤ f := by
            simp only [List.length_cons] at h1
            omega
          have ht2 : t.length ≤ g := by
            simp only [List.length_cons] at h2
            omega
          rw [ih ht ht2]

/-- The recurrence of Rust `str::replace`: at each position either the
pattern matches and is replaced, or one character is kept. -/
theorem replaceAll_cons (pat rep : Str) (c : Char) (s : Str) :
    replaceAll pat rep (c :: s) =
      if pat ≠ [] ∧ isPre pat (c :: s) then
        rep ++ replaceAll pat rep ((c :: s).drop pat.length)
      else c :: replaceAll pat rep s := by
  rw [replaceAll, List.length_cons, replaceAllAux]
  split
  · next hcond =>
    have hp : 1 ≤ pat.length := List.length_pos.mpr hcond.1
    congr 1
    rw [replaceAll]
    apply replaceAllAux_fuel
    · simp only [List.length_drop, List.length_cons]
      omega
    · exact Nat.le_refl _
  · rw [replaceAll]

/-- Rust `str::ends_with` with a char pattern. -/
def endsWithC (c : Char) (s : Str) : Bool := s.getLast? == some c

/-- `line.trim().is_empty()`: a whitespace-only line. -/
def isBlankL (l : Str) : Bool := (trim l).isEmpty

/-! ## The error taxonomy and value types of the source -/

/-- `SUBJECT_MAX_LEN` of the source. -/
def SUBJECT_MAX_LEN : Nat := 50

/-- `BODY_LINE_MAX_LEN` of the source. -/
def BODY_LINE_MAX_LEN : Nat := 72

/-- The `ValidationError` enum of the source, with each variant's payload. -/
inductive ValidationError
  | commitTypeInvalid (raw : Str) (allowed : Str)
  | summaryEmpty
  | summaryMultiline
  | summaryEndsWithPeriod
  | scopeMultiline
  | scopeHasClosingParen
  | scopeEmpty
  | bodyEmpty
  | breakingNoteEmpty
  | breakingNoteMultiline
  | bodyLineTooLong (len : Nat) (line : Str)
  | subjectTooLong (len : Nat) (budget : Nat) (subject : Str)
  | messageSubjectMissing
  | messageSubjectInvalidFormat (subject : Str)
  | messageMissingBlankLineAfterSubject
  | messageBreakingFooterNotLast
  | messageBreakingFooterMissingBang
  | messageBangWithoutBreakingFooter
deriving DecidableEq

/-- The `CommitType` enum of the source. -/
inductive CommitType
  | fix
  | feat
  | docs
  | style
  | refactor
  | perf
  | test
  | build
  | chore
  | ci
  | revert
deriving DecidableEq

/-- `CommitType::as_str`. -/
def CommitType.asStr : CommitType → Str
  | .fix => "fix".data
  | .feat => "feat".data
  | .docs => "docs".data
  | .style => "style".data
  | .refactor => "refactor".data
  | .perf => "perf".data
  | .test => "test".data
  | .build => "build".data
  | .chore => "chore".data
  | .ci => "ci".data
  | .revert => "revert".data

/-- `CommitType::allowed_list`: the fixed array joined with one space. -/
def CommitType.allowedList : Str :=
  joinSep [' ']
    ["fix".data, "feat".data, "docs".data, "style".data, "refactor".data,
      "perf".data, "test".data, "build".data, "chore".data, "ci".data,
      "revert".data]

/-- `<CommitType as FromStr>::from_str`: trim, then match the closed set. -/
def CommitType.fromStr (raw : Str) : Except ValidationError CommitType :=
  let t := trim raw
  if t = "fix".data then .ok .fix
  else if t = "feat".data then .ok .feat
  else if t = "docs".data then .ok .docs
  else if t = "style".data then .ok .style
  else if t = "refactor".data then .ok .refactor
  else if t = "perf".data then .ok .perf
  else if t = "test".data then .ok .test
  else if t = "build".data then .ok .build
  else if t = "chore".data then .ok .chore
  else if t = "ci".data then .ok .ci
  else if t = "revert".data then .ok .revert
  else .error (.commitTypeInvalid t CommitType.allowedList)

/-- The `CommitSummary` newtype. -/
structure CommitSummary where
  text : Str
deriving DecidableEq

/-- `<CommitSummary as FromStr>::from_str`: trim; reject empty and
multi-line input; collapse internal whitespace runs to single spaces;
reject a trailing period. -/
def CommitSummary.fromStr (rawSummary : Str) : Except ValidationError CommitSummary :=
  let trimmed := trim rawSummary
  if trimmed = [] then .error .summaryEmpty
  else if trimmed.contains '\n' || trimmed.contains '\r' then .error .summaryMultiline
  else
    let summary := joinSep [' '] (splitWs trimmed)
    if endsWithC '.' summary then .error .summaryEndsWithPeriod
    else .ok ⟨summary⟩

/-- The `CommitScope` newtype. -/
structure CommitScope where
  text : Str
deriving DecidableEq

/-- `<CommitScope as FromStr>::from_str`. -/
def CommitScope.fromStr (rawScope : Str) : Except ValidationError CommitScope :=
  let scope := trim rawScope
  if scope = [] then .error .scopeEmpty
  else if scope.contains '\n' || scope.contains '\r' then .error .scopeMultiline
  else if scope.contains ')' then .error .scopeHasClosingParen
  else .ok ⟨scope⟩

/-- The `CommitBody` newtype. -/
structure CommitBody where
  text : Str
deriving DecidableEq

/-- `<CommitBody as FromStr>::from_str`: trim; reject empty input; report
the first non-empty line longer than 72 bytes. -/
def CommitBody.fromStr (rawBody : Str) : Except ValidationError CommitBody :=
  let body := trim rawBody
  if body = [] then .error .bodyEmpty
  else
    match (rsLines body).find? (fun l => !l.isEmpty && decide (BODY_LINE_MAX_LEN < utf8Len l)) with
    | some l => .error (.bodyLineTooLong (utf8Len l) l)
    | none => .ok ⟨body⟩

/-- The `BreakingNote` newtype. -/
structure BreakingNote where
  text : Str
deriving DecidableEq

/-- `<BreakingNote as FromStr>::from_str`. -/
def BreakingNote.fromStr (rawNote : Str) : Except ValidationError BreakingNote :=
  let note := trim rawNote
  if note = [] then .error .breakingNoteEmpty
  else if note.contains '\n' || note.contains '\r' then .error .breakingNoteMultiline
  else .ok ⟨note⟩

/-- The `CommitSubject` newtype. -/
structure CommitSubject where
  text : Str
deriving DecidableEq

/-- The `format!` expressions of `CommitSubject::new`: `type(scope)!: summary`
when a scope is given, else `type!: summary`, with the bang present exactly
when `hasBang` holds. -/
def subjectText (commitType : CommitType) (scope : Option CommitScope)
    (summary : CommitSummary) (hasBang : Bool) : Str :=
  match scope with
  | some sc =>
    commitType.asStr ++
      '(' :: (sc.text ++ ')' :: ((if hasBang then ['!'] else []) ++ ':' :: ' ' :: summary.text))
  | none => commitType.asStr ++ (if hasBang then ['!'] else []) ++ ':' :: ' ' :: summary.text

/-- `CommitSubject::new`: compose the canonical subject (the bang present
iff a breaking note is passed) and enforce the 50-byte ceiling, reporting
the remaining summary budget computed by replacing the summary substring
with the empty string. -/
def CommitSubject.new (commitType : CommitType) (scope : Option CommitScope)
    (summary : CommitSummary) (breakingNote : Option BreakingNote) :
    Except ValidationError CommitSubject :=
  if SUBJECT_MAX_LEN < utf8Len (subjectText commitType scope summary breakingNote.isSome) then
    .error (.subjectTooLong
      (utf8Len (subjectText commitType scope summary breakingNote.isSome))
      (SUBJECT_MAX_LEN -
        utf8Len (replaceAll summary.text []
          (subjectText commitType scope summary breakingNote.isSome)))
      (subjectText commitType scope summary breakingNote.isSome))
  else .ok ⟨subjectText commitType scope summary breakingNote.isSome⟩

/-- The literal `"BREAKING CHANGE:"` footer key. -/
def bcKey : Str := "BREAKING CHANGE:".data

/-- `new_commit_message`: the message parts (subject; a blank line and the
body, when present; a blank line and the breaking footer, when present)
joined with line feeds. -/
def newCommitMessage (subject : CommitSubject) (body : Option CommitBody)
    (breakingNote : Option BreakingNote) : Str :=
  let parts : List Str :=
    [subject.text]
      ++ (match body with
          | some b => [[], b.text]
          | none => [])
      ++ (match breakingNote with
          | some n => [[], bcKey ++ ' ' :: n.text]
          | none => [])
  joinSep ['\n'] parts

/-! ## The message validator pipeline -/

/-- `is_autosquash_subject`. -/
def isAutosquashSubject (subject : Str) : Bool :=
  isPre "fixup! ".data subject || isPre "squash! ".data subject ||
    isPre "amend! ".data subject

/-- `parse_subject_line`: split at the first `": "`, strip an optional
trailing bang from the trimmed head, split off a parenthesised scope when
the head ends with `)`, parse the commit type, then the summary. -/
def parseSubjectLine (subject : Str) :
    Except ValidationError (CommitType × Option Str × CommitSummary × Bool) :=
  match splitOnce ": ".data subject with
  | none => .error (.messageSubjectInvalidFormat subject)
  | some (typeScopeBang, summaryRaw) =>
    let pfx0 := trim typeScopeBang
    if pfx0 = [] then .error (.messageSubjectInvalidFormat subject)
    else
      let hasBang := endsWithC '!' pfx0
      let pfx := if hasBang then rtrim pfx0.dropLast else pfx0
      if hasBang ∧ pfx = [] then .error (.messageSubjectInvalidFormat subject)
      else if endsWithC ')' pfx then
        match splitOnce "(".data pfx with
        | none => .error (.messageSubjectInvalidFormat subject)
        | some (beforeParen, afterParen) =>
          let rawType := trim beforeParen
          let rawScope := afterParen.dropLast
          if rawType = [] then .error (.messageSubjectInvalidFormat subject)
          else
            match CommitType.fromStr rawType with
            | .error e => .error e
            | .ok commitType =>
              match CommitSummary.fromStr summaryRaw with
              | .error e => .error e
              | .ok summary => .ok (commitType, some rawScope, summary, hasBang)
      else
        match CommitType.fromStr pfx with
        | .error e => .error e
        | .ok commitType =>
          match CommitSummary.fromStr summaryRaw with
          | .error e => .error e
          | .ok summary => .ok (commitType, none, summary, hasBang)

/-- `validate_subject_length`: the length ceiling and budget formula of
`CommitSubject::new`, applied to the raw subject line. -/
def validateSubjectLength (subject summary : Str) : Except ValidationError Unit :=
  if utf8Len subject ≤ SUBJECT_MAX_LEN then .ok ()
  else
    .error (.subjectTooLong (utf8Len subject)
      (SUBJECT_MAX_LEN - utf8Len (replaceAll summary [] subject)) subject)

/-- The indices of the lines of `content` whose left-trimmed text starts
with `BREAKING CHANGE:` (the `breaking_indices` vector of
`split_body_and_breaking_footer`). -/
def breakingIdxs (content : List Str) : List Nat :=
  (List.range content.length).filter
    (fun i => isPre bcKey (ltrim (content.getD i [])))

/-- `note_raw.strip_prefix(' ').unwrap_or(note_raw)`: remove one leading
space, if present. -/
def stripOneSpace (s : Str) : Str :=
  match s with
  | ' ' :: r => r
  | _ => s

/-- The note extracted from a footer line, as
`split_body_and_breaking_footer` computes it: right-trim the line,
left-trim it, remove the `BREAKING CHANGE:` key, remove one following
space if present, then trim. -/
def footerNote (line : Str) : Str :=
  trim (stripOneSpace ((dropPre bcKey (ltrim (rtrim line))).getD []))

/-- `split_body_and_breaking_footer`: no footer line means the whole
content is the body; otherwise the unique footer must be the last line,
the note is extracted from it, and any line right before the footer must
be blank. -/
def splitBodyAndBreakingFooter (content : List Str) :
    Except ValidationError (List Str × Option Str) :=
  let idxs := breakingIdxs content
  if idxs = [] then .ok (content, none)
  else if idxs.length ≠ 1 ∨ idxs.headD 0 ≠ content.length - 1 then
    .error .messageBreakingFooterNotLast
  else
    let note := footerNote ((content.getLast?).getD [])
    if note = [] then .error .breakingNoteEmpty
    else if content.length = 1 then .ok ([], some note)
    else
      let before := content.getD (content.length - 2) []
      if !isBlankL before then .error .messageBreakingFooterNotLast
      else .ok (content.take (content.length - 2), some note)

/-- `has_non_empty_body`. -/
def hasNonEmptyBody (bodyLines : List Str) : Bool :=
  bodyLines.any (fun l => !isBlankL l)

/-- `Option::transpose` over `CommitScope::from_str`, as in
`validate_commit_message`. -/
def transposeScope (scope : Option Str) : Except ValidationError (Option CommitScope) :=
  match scope with
  | some s =>
    match CommitScope.fromStr s with
    | .error e => .error e
    | .ok v => .ok (some v)
  | none => .ok none

/-- `Option::transpose` over `BreakingNote::from_str`, as in
`validate_commit_message`. -/
def transposeNote (note : Option Str) : Except ValidationError (Option BreakingNote) :=
  match note with
  | some n =>
    match BreakingNote.fromStr n with
    | .error e => .error e
    | .ok v => .ok (some v)
  | none => .ok none

/-- The final step of `validate_commit_message` (lines 394-401): re-validate
the captured scope and note and reconstruct the subject. -/
def rebuildSubject (commitType : CommitType) (scope : Option Str)
    (summary : CommitSummary) (note : Option Str) : Except ValidationError Unit :=
  match transposeScope scope with
  | .error e => .error e
  | .ok sc =>
    match transposeNote note with
    | .error e => .error e
    | .ok nt =>
      match CommitSubject.new commitType sc summary nt with
      | .error e => .error e
      | .ok _ => .ok ()

/-- Lines 389-401 of `validate_commit_message`: validate the joined body
text when some body line is non-blank, then rebuild the subject. -/
def validateBodyAndRebuild (commitType : CommitType) (scope : Option Str)
    (summary : CommitSummary) (bodyLines : List Str) (note : Option Str) :
    Except ValidationError Unit :=
  if hasNonEmptyBody bodyLines then
    match CommitBody.fromStr (joinSep ['\n'] bodyLines) with
    | .error e => .error e
    | .ok _ => rebuildSubject commitType scope summary note
  else rebuildSubject commitType scope summary note

/-- Lines 380-401 of `validate_commit_message`: the bang/footer
cross-check (with the note re-validated in passing on the bang side), then
body validation and subject reconstruction. -/
def crossCheckAndFinish (commitType : CommitType) (scope : Option Str)
    (summary : CommitSummary) (hasBang : Bool) (bodyLines : List Str)
    (note : Option Str) : Except ValidationError Unit :=
  match note with
  | some n =>
    if hasBang then
      match BreakingNote.fromStr n with
      | .error e => .error e
      | .ok _ => validateBodyAndRebuild commitType scope summary bodyLines (some n)
    else .error .messageBreakingFooterMissingBang
  | none =>
    if hasBang then .error .messageBangWithoutBreakingFooter
    else validateBodyAndRebuild commitType scope summary bodyLines none

/-- The trailing whitespace-only lines removed (the second `while` loop of
`validate_commit_message`, lines 332-334). -/
def dropTrailingBlanks (ls : List Str) : List Str :=
  (ls.reverse.dropWhile isBlankL).reverse

/-- Lines 324-334 of `validate_commit_message`: collect the lines, drop
every line whose first character is `#`, then strip leading and trailing
whitespace-only lines. -/
def processedLines (rawMessage : Str) : List Str :=
  let kept := (rsLines rawMessage).filter (fun l => !(l.head? == some '#'))
  dropTrailingBlanks (kept.dropWhile isBlankL)

/-- `validate_commit_message`: the sequential fail-fast pipeline. -/
def validateCommitMessage (rawMessage : Str) : Except ValidationError Unit :=
  match processedLines rawMessage with
  | [] => .error .messageSubjectMissing
  | firstLine :: rest =>
    let subjectLine := trim firstLine
    if isAutosquashSubject subjectLine then
      let afterMarker :=
        match splitOnce " ".data subjectLine with
        | some (_, r) => trim r
        | none => []
      if afterMarker = [] then .error (.messageSubjectInvalidFormat subjectLine)
      else .ok ()
    else
      match parseSubjectLine subjectLine with
      | .error e => .error e
      | .ok (commitType, scope, summary, hasBang) =>
        match validateSubjectLength subjectLine summary.text with
        | .error e => .error e
        | .ok _ =>
          match rest with
          | [] =>
            if hasBang then .error .messageBangWithoutBreakingFooter else .ok ()
          | second :: content =>
            if !isBlankL second then .error .messageMissingBlankLineAfterSubject
            else if content = [] then
              if hasBang then .error .messageBangWithoutBreakingFooter else .ok ()
            else
              match splitBodyAndBreakingFooter content with
              | .error e => .error e
              | .ok (bodyLines, note) =>
                crossCheckAndFinish commitType scope summary hasBang bodyLines note

/-! ## Trimming lemmas -/

theorem ltrim_nil : ltrim [] = [] := rfl

theorem ltrim_cons_pos {c : Char} (h : isRustWs c = true) (s : Str) :
    ltrim (c :: s) = ltrim s := by
  simp [ltrim, List.dropWhile_cons, h]

theorem ltrim_cons_neg {c : Char} (h : isRustWs c = false) (s : Str) :
    ltrim (c :: s) = c :: s := by
  simp [ltrim, List.dropWhile_cons, h]

theorem ltrim_append (a b : Str) :
    ltrim (a ++ b) = if ltrim a = [] then ltrim b else ltrim a ++ b := by
  induction a with
  | nil => simp [ltrim_nil]
  | cons c a ih =>
    by_cases h : isRustWs c = true
    · rw [List.cons_append, ltrim_cons_pos h, ltrim_cons_pos h, ih]
    · replace h : isRustWs c = false := by simpa using h
      rw [List.cons_append, ltrim_cons_neg h, ltrim_cons_neg h]
      simp

theorem ltrim_head_not_ws : ∀ {s : Str} {c : Char} {r : Str},
    ltrim s = c :: r → isRustWs c = false := by
  intro s
  induction s with
  | nil => intro c r h; simp [ltrim_nil] at h
  | cons d s ih =>
    intro c r h
    by_cases hd : isRustWs d = true
    · rw [ltrim_cons_pos hd] at h; exact ih h
    · replace hd : isRustWs d = false := by simpa using hd
      rw [ltrim_cons_neg hd] at h
      injection h with h1 _
      rw [← h1]; exact hd

theorem ltrim_eq_nil_iff {s : Str} :
    ltrim s = [] ↔ ∀ c ∈ s, isRustWs c = true := by
  induction s with
  | nil => simp [ltrim_nil]
  | cons d s ih =>
    by_cases hd : isRustWs d = true
    · rw [ltrim_cons_pos hd]; simp [hd, ih]
    · replace hd : isRustWs d = false := by simpa using hd
      rw [ltrim_cons_neg hd]; simp [hd]

theorem mem_ltrim {c : Char} {s : Str} (h : c ∈ ltrim s) : c ∈ s := by
  have := List.takeWhile_append_dropWhile (p := isRustWs) (l := s)
  rw [← this]
  exact List.mem_append_right _ h

theorem rtrim_nil : rtrim [] = [] := rfl

theorem rtrim_concat_neg {c : Char} (h : isRustWs c = false) (s : Str) :
    rtrim (s ++ [c]) = s ++ [c] := by
  simp [rtrim, List.reverse_append, ltrim_cons_neg h]

theorem rtrim_cons_neg {c : Char} (h : isRustWs c = false) (s : Str) :
    rtrim (c :: s) = c :: rtrim s := by
  unfold rtrim
  rw [show (c :: s).reverse = s.reverse ++ [c] by simp, ltrim_append]
  split
  · next heq => simp [ltrim_cons_neg h, heq]
  · simp

theorem rtrim_getLast_not_ws {s r : Str} {c : Char} (h : rtrim s = r ++ [c]) :
    isRustWs c = false := by
  have h2 : ltrim s.reverse = c :: r.reverse := by
    have := congrArg List.reverse h
    simpa [rtrim] using this
  exact ltrim_head_not_ws h2

theorem rtrim_eq_nil_iff {s : Str} :
    rtrim s = [] ↔ ∀ c ∈ s, isRustWs c = true := by
  constructor
  · intro h c hc
    have h2 : ltrim s.reverse = [] := by
      have := congrArg List.reverse h
      simpa [rtrim] using this
    exact ltrim_eq_nil_iff.mp h2 c (by simpa using hc)
  · intro h
    have h2 : ltrim s.reverse = [] := ltrim_eq_nil_iff.mpr (by simpa using h)
    simp [rtrim, h2]

theorem mem_rtrim {c : Char} {s : Str} (h : c ∈ rtrim s) : c ∈ s := by
  simp only [rtrim, List.mem_reverse] at h
  simpa using mem_ltrim h

theorem trim_nil : trim [] = [] := rfl

theorem trim_eq_self {s : Str}
    (h1 : ∀ c, s.head? = some c → isRustWs c = false)
    (h2 : ∀ c, s.getLast? = some c → isRustWs c = false) : trim s = s := by
  cases hs : s with
  | nil => exact trim_nil
  | cons d t =>
    have hd : isRustWs d = false := h1 d (by rw [hs]; rfl)
    have hlast : ∃ r e, d :: t = r ++ [e] ∧ isRustWs e = false := by
      obtain ⟨e, he⟩ : ∃ e, (d :: t).getLast? = some e := by
        cases hg : (d :: t).getLast? with
        | none => simp [List.getLast?_eq_some_iff] at hg
        | some e => exact ⟨e, rfl⟩
      obtain ⟨r, hr⟩ := List.getLast?_eq_some_iff.mp he
      exact ⟨r, e, hr, h2 e (by rw [hs, he])⟩
    obtain ⟨r, e, hre, hews⟩ := hlast
    rw [hs] at *
    rw [trim, ltrim_cons_neg hd, hre, rtrim_concat_neg hews]

theorem trim_head_not_ws {s : Str} {c : Char} {r : Str} (h : trim s = c :: r) :
    isRustWs c = false := by
  rw [trim] at h
  cases hl : ltrim s with
  | nil => rw [hl, rtrim_nil] at h; exact absurd h (by simp)
  | cons d t =>
    have hd := ltrim_head_not_ws hl
    rw [hl, rtrim_cons_neg hd] at h
    injection h with h1 _
    rw [← h1]; exact hd

theorem trim_getLast_not_ws {s r : Str} {c : Char} (h : trim s = r ++ [c]) :
    isRustWs c = false := rtrim_getLast_not_ws h

theorem trim_idem (s : Str) : trim (trim s) = trim s := by
  cases htr : trim s with
  | nil => exact trim_nil
  | cons c r =>
    apply trim_eq_self
    · intro d hd
      simp only [List.head?_cons, Option.some.injEq] at hd
      rw [← hd]
      exact trim_head_not_ws htr
    · intro d hd
      obtain ⟨ys, hys⟩ := List.getLast?_eq_some_iff.mp hd
      exact trim_getLast_not_ws (s := s) (by rw [htr, hys])

theorem mem_takeWhile_sat {p : Char → Bool} {c : Char} :
    ∀ {s : Str}, c ∈ s.takeWhile p → p c = true := by
  intro s
  induction s with
  | nil => intro h; simp at h
  | cons d t ih =>
    intro h
    rw [List.takeWhile_cons] at h
    by_cases hd : p d
    · simp only [hd, if_pos] at h
      rcases List.mem_cons.mp h with h | h
      · rw [h]; exact hd
      · exact ih h
    · simp [hd] at h

theorem trim_eq_nil_iff {s : Str} :
    trim s = [] ↔ ∀ c ∈ s, isRustWs c = true := by
  constructor
  · intro h c hc
    rw [trim] at h
    have hall : ∀ c ∈ ltrim s, isRustWs c = true := rtrim_eq_nil_iff.mp h
    have hsplit := List.takeWhile_append_dropWhile (p := isRustWs) (l := s)
    rw [← hsplit] at hc
    rcases List.mem_append.mp hc with h1 | h1
    · exact mem_takeWhile_sat h1
    · exact hall c h1
  · intro h
    have : ltrim s = [] := ltrim_eq_nil_iff.mpr h
    rw [trim, this, rtrim_nil]

theorem mem_trim {c : Char} {s : Str} (h : c ∈ trim s) : c ∈ s :=
  mem_ltrim (mem_rtrim h)

theorem isBlankL_iff {l : Str} :
    isBlankL l = true ↔ ∀ c ∈ l, isRustWs c = true := by
  rw [isBlankL, List.isEmpty_iff, trim_eq_nil_iff]

/-! ## Prefix and split_once lemmas -/

theorem isPre_nil_left (s : Str) : isPre [] s = true := by cases s <;> rfl

theorem isPre_append_self (p t : Str) : isPre p (p ++ t) = true := by
  induction p with
  | nil => exact isPre_nil_left t
  | cons a p ih => simp [isPre, ih]

theorem isPre_iff_exists {p s : Str} : isPre p s = true ↔ ∃ t, s = p ++ t := by
  constructor
  · intro h
    induction p generalizing s with
    | nil => exact ⟨s, rfl⟩
    | cons a p ih =>
      cases s with
      | nil => simp [isPre] at h
      | cons b t =>
        simp only [isPre, Bool.and_eq_true, beq_iff_eq] at h
        obtain ⟨u, hu⟩ := ih h.2
        exact ⟨u, by rw [hu, h.1]; rfl⟩
  · rintro ⟨t, rfl⟩
    exact isPre_append_self p t

theorem isPre_two {c₁ c₂ x y : Char} (z : Str) :
    isPre [c₁, c₂] (x :: y :: z) = (c₁ == x && c₂ == y) := by
  simp [isPre, isPre_nil_left]

/-- `pat` occurs nowhere in `s`. -/
def noOccur (pat s : Str) : Prop := ∀ i, isPre pat (s.drop i) = false

theorem noOccur_shift {pat : Str} {c : Char} {s : Str} (h : noOccur pat (c :: s)) :
    noOccur pat s := by
  intro i
  have := h (i + 1)
  simpa using this

theorem splitOnce_eq_none_iff {sep s : Str} :
    splitOnce sep s = none ↔ noOccur sep s := by
  induction s with
  | nil =>
    simp only [splitOnce, noOccur, List.drop_nil]
    constructor
    · intro h i
      by_cases hp : isPre sep [] = true
      · simp [hp] at h
      · simpa using hp
    · intro h
      rw [h 0]
      simp
  | cons c s ih =>
    constructor
    · intro h i
      simp only [splitOnce] at h
      by_cases hp : isPre sep (c :: s) = true
      · simp [hp] at h
      · cases i with
        | zero => simpa using hp
        | succ j =>
          rw [List.drop_succ_cons]
          rcases hs : splitOnce sep s with _ | ⟨a, b⟩
          · exact (ih.mp hs) j
          · simp [hp, hs] at h
    · intro h
      simp only [splitOnce]
      have h0 : isPre sep (c :: s) = false := h 0
      rw [h0]
      simp only [Bool.false_eq_true, if_false]
      have : splitOnce sep s = none := ih.mpr (noOccur_shift h)
      rw [this]

theorem noOccur_of_head_not_mem {c₁ : Char} {rest : Str} {s : Str}
    (h : c₁ ∉ s) : noOccur (c₁ :: rest) s := by
  intro i
  cases hd : s.drop i with
  | nil => cases rest <;> rfl
  | cons b t =>
    have hb : b ∈ s := List.drop_subset i s (by rw [hd]; exact List.mem_cons_self b t)
    have : c₁ ≠ b := fun he => h (he ▸ hb)
    simp [isPre, this]

theorem noOccur2_append {c₁ c₂ : Char} {a b : Str}
    (h1 : noOccur [c₁, c₂] a) (h2 : noOccur [c₁, c₂] b)
    (h3 : ¬(a.getLast? = some c₁ ∧ b.head? = some c₂)) :
    noOccur [c₁, c₂] (a ++ b) := by
  induction a with
  | nil => simpa using h2
  | cons x a ih =>
    intro i
    cases i with
    | zero =>
      rw [List.drop_zero]
      cases a with
      | nil =>
        cases b with
        | nil => cases hx : (c₁ == x) <;> simp [isPre, hx]
        | cons y t =>
          simp only [List.nil_append, List.cons_append, isPre_two]
          by_cases hcx : c₁ = x
          · by_cases hcy : c₂ = y
            · exact absurd ⟨by simp [hcx], by simp [hcy]⟩ h3
            · simp [hcy]
          · simp [hcx]
      | cons y t =>
        simp only [List.cons_append, isPre_two]
        have := h1 0
        rw [List.drop_zero, isPre_two] at this
        exact this
    | succ j =>
      rw [List.cons_append, List.drop_succ_cons]
      have h3' : ¬(a.getLast? = some c₁ ∧ b.head? = some c₂) := by
        cases a with
        | nil => simp
        | cons y t =>
          intro ⟨hg, hh⟩
          exact h3 ⟨by rw [List.getLast?_cons_cons]; exact hg, hh⟩
      exact ih (noOccur_shift h1) h3' j

theorem splitOnce2_append {c₁ c₂ : Char} (hne : c₁ ≠ c₂) {a : Str} (b : Str)
    (h : noOccur [c₁, c₂] a) :
    splitOnce [c₁, c₂] (a ++ c₁ :: c₂ :: b) = some (a, b) := by
  induction a with
  | nil =>
    simp only [List.nil_append, splitOnce]
    rw [show isPre [c₁, c₂] (c₁ :: c₂ :: b) = true by simp [isPre, isPre_nil_left]]
    simp
  | cons x a ih =>
    simp only [List.cons_append, splitOnce, List.append_eq]
    have hfalse : isPre [c₁, c₂] (x :: (a ++ c₁ :: c₂ :: b)) = false := by
      cases a with
      | nil =>
        simp only [List.nil_append, isPre_two]
        by_cases hcx : c₁ = x
        · simp [show (c₂ == c₁) = false by simp [Ne.symm hne]]
        · simp [hcx]
      | cons y t =>
        simp only [List.cons_append, isPre_two]
        have := h 0
        rw [List.drop_zero, isPre_two] at this
        exact this
    rw [hfalse]
    simp only [Bool.false_eq_true, if_false]
    rw [ih (noOccur_shift h)]

theorem splitOnce1_append {c : Char} {a : Str} (b : Str) (h : c ∉ a) :
    splitOnce [c] (a ++ c :: b) = some (a, b) := by
  induction a with
  | nil =>
    simp only [List.nil_append, splitOnce]
    rw [show isPre [c] (c :: b) = true by simp [isPre, isPre_nil_left]]
    simp
  | cons x a ih =>
    simp only [List.cons_append, splitOnce, List.append_eq]
    have hxc : (c == x) = false := by
      simp only [beq_eq_false_iff_ne, ne_eq]
      intro he
      exact h (he ▸ List.mem_cons_self x a)
    have hfalse : isPre [c] (x :: (a ++ c :: b)) = false := by simp [isPre, hxc]
    rw [hfalse]
    simp only [Bool.false_eq_true, if_false]
    rw [ih (fun hm => h (List.mem_cons_of_mem x hm))]

/-! ## Line splitting lemmas -/

theorem splitLF_ne_nil (s : Str) : splitLF s ≠ [] := by
  cases s with
  | nil => simp [splitLF]
  | cons c t =>
    simp only [splitLF]
    split <;> simp

theorem splitLF_no_lf {s : Str} (h : '\n' ∉ s) : splitLF s = [s] := by
  induction s with
  | nil => rfl
  | cons c t ih =>
    have hc : ¬(c = '\n') := fun he => h (he ▸ List.mem_cons_self c t)
    have ht : '\n' ∉ t := fun hm => h (List.mem_cons_of_mem c hm)
    simp only [splitLF, ih ht, if_neg hc]
    simp

theorem splitLF_append (a b : Str) :
    splitLF (a ++ '\n' :: b) = splitLF a ++ splitLF b := by
  induction a with
  | nil => simp [splitLF]
  | cons c t ih =>
    by_cases hc : c = '\n'
    · subst hc
      simp [splitLF, ih]
    · cases hsp : splitLF t with
      | nil => exact absurd hsp (splitLF_ne_nil t)
      | cons u us =>
        simp only [List.cons_append, splitLF, if_neg hc, List.append_eq]
        rw [ih, hsp]
        simp

theorem stripCR_eq_self {l : Str} (h : l.getLast? ≠ some '\r') : stripCR l = l := by
  rw [stripCR, if_neg h]

theorem utf8Len_append (a b : Str) : utf8Len (a ++ b) = utf8Len a + utf8Len b := by
  simp [utf8Len]

theorem utf8Len_dropLast_le (l : Str) : utf8Len l.dropLast ≤ utf8Len l := by
  cases hl : l.getLast? with
  | none =>
    rw [List.getLast?_eq_none_iff] at hl
    simp [hl]
  | some c =>
    obtain ⟨ys, rfl⟩ := List.getLast?_eq_some_iff.mp hl
    rw [List.dropLast_concat, utf8Len_append]
    omega

theorem utf8Len_stripCR_le (l : Str) : utf8Len (stripCR l) ≤ utf8Len l := by
  rw [stripCR]
  split
  · exact utf8Len_dropLast_le l
  · exact Nat.le_refl _

/-- `rsLines` of a text split by a line feed: the pieces of the left part
(each with a trailing carriage return stripped), then the lines of the
right part. -/
theorem rsLines_append (a b : Str) :
    rsLines (a ++ '\n' :: b) = (splitLF a).map stripCR ++ rsLines b := by
  have hb := splitLF_ne_nil b
  rw [rsLines, rsLines, splitLF_append]
  rw [List.dropLast_append_of_ne_nil _ hb, List.getLast?_append]
  cases hgl : (splitLF b).getLast? with
  | none =>
    rw [List.getLast?_eq_none_iff] at hgl
    exact absurd hgl hb
  | some l => simp [List.map_append]

/-- `rsLines` of a single-line text that is nonempty. -/
theorem rsLines_single {s : Str} (hlf : '\n' ∉ s) (hne : s ≠ []) :
    rsLines s = [s] := by
  rw [rsLines, splitLF_no_lf hlf]
  cases s with
  | nil => exact absurd rfl hne
  | cons c t => simp [lastPiece]

/-! ## Blank-line trimming of line lists -/

theorem dropTrailingBlanks_append (xs ys : List Str) :
    dropTrailingBlanks (xs ++ ys) =
      if dropTrailingBlanks ys = [] then dropTrailingBlanks xs
      else xs ++ dropTrailingBlanks ys := by
  rw [dropTrailingBlanks, List.reverse_append, List.dropWhile_append]
  by_cases hy : (ys.reverse.dropWhile isBlankL).isEmpty
  · rw [if_pos hy]
    have : dropTrailingBlanks ys = [] := by
      rw [dropTrailingBlanks, List.isEmpty_iff.mp hy]
      rfl
    rw [if_pos this]
    rfl
  · rw [if_neg hy]
    have h2 : ¬dropTrailingBlanks ys = [] := by
      rw [dropTrailingBlanks]
      intro hc
      have := congrArg List.reverse hc
      simp only [List.reverse_reverse, List.reverse_nil] at this
      rw [this] at hy
      simp at hy
    rw [if_neg h2, List.reverse_append, List.reverse_reverse]
    rfl

theorem dropTrailingBlanks_nil : dropTrailingBlanks [] = [] := rfl

theorem dropTrailingBlanks_of_last_not_blank {xs : List Str} {l : Str}
    (hl : xs.getLast? = some l) (h : isBlankL l = false) :
    dropTrailingBlanks xs = xs := by
  obtain ⟨ys, rfl⟩ := List.getLast?_eq_some_iff.mp hl
  rw [dropTrailingBlanks, List.reverse_append]
  simp only [List.reverse_cons, List.reverse_nil, List.nil_append, List.singleton_append]
  rw [List.dropWhile_cons_of_neg (by simp [h]), List.reverse_cons, List.reverse_reverse]

/-! ## Join and whitespace-split lemmas -/

theorem joinSep_cons (sep : Str) (x : Str) {xs : List Str} (h : xs ≠ []) :
    joinSep sep (x :: xs) = x ++ sep ++ joinSep sep xs := by
  cases xs with
  | nil => exact absurd rfl h
  | cons y ys => rfl

theorem mem_joinSep {c : Char} {sep : Str} :
    ∀ {ls : List Str}, c ∈ joinSep sep ls → c ∈ sep ∨ ∃ l ∈ ls, c ∈ l := by
  intro ls
  induction ls with
  | nil => intro h; simp [joinSep] at h
  | cons x xs ih =>
    intro h
    cases xs with
    | nil =>
      simp only [joinSep] at h
      exact Or.inr ⟨x, List.mem_cons_self x [], h⟩
    | cons y ys =>
      rw [joinSep_cons sep x (by simp)] at h
      rcases List.mem_append.mp h with h1 | h1
      · rcases List.mem_append.mp h1 with h2 | h2
        · exact Or.inr ⟨x, List.mem_cons_self x _, h2⟩
        · exact Or.inl h2
      · rcases ih h1 with h2 | ⟨l, hl, hc⟩
        · exact Or.inl h2
        · exact Or.inr ⟨l, List.mem_cons_of_mem x hl, hc⟩

theorem joinSep_head {sep x : Str} {xs : List Str} (hx : x ≠ []) :
    (joinSep sep (x :: xs)).head? = x.head? := by
  cases xs with
  | nil => rfl
  | cons y ys =>
    rw [joinSep_cons sep x (by simp), List.append_assoc, List.head?_append]
    cases hh : x.head? with
    | none => rw [List.head?_eq_none_iff] at hh; exact absurd hh hx
    | some c => rfl

theorem joinSep_getLast {sep l : Str} (hl : l ≠ []) :
    ∀ {ls : List Str}, (joinSep sep (ls ++ [l])).getLast? = l.getLast? := by
  intro ls
  induction ls with
  | nil => rfl
  | cons x xs ih =>
    rw [List.cons_append, joinSep_cons sep x (by simp), List.getLast?_append]
    rw [ih]
    cases hg : l.getLast? with
    | none => rw [List.getLast?_eq_none_iff] at hg; exact absurd hg hl
    | some c => rfl

theorem takeWhile_all {p : Char → Bool} {l : Str} (h : ∀ c ∈ l, p c = true) :
    l.takeWhile p = l := by
  induction l with
  | nil => rfl
  | cons c t ih =>
    rw [List.takeWhile_cons_of_pos (h c (List.mem_cons_self c t))]
    rw [ih (fun d hd => h d (List.mem_cons_of_mem c hd))]

theorem dropWhile_all {p : Char → Bool} {l : Str} (h : ∀ c ∈ l, p c = true) :
    l.dropWhile p = [] := by
  induction l with
  | nil => rfl
  | cons c t ih =>
    rw [List.dropWhile_cons_of_pos (h c (List.mem_cons_self c t))]
    exact ih (fun d hd => h d (List.mem_cons_of_mem c hd))

theorem takeWhile_append_stop {p : Char → Bool} {u : Str} {x : Char} (j : Str)
    (hu : ∀ c ∈ u, p c = true) (hx : p x = false) :
    (u ++ x :: j).takeWhile p = u := by
  induction u with
  | nil => simp [List.takeWhile_cons, hx]
  | cons c t ih =>
    rw [List.cons_append, List.takeWhile_cons_of_pos (hu c (List.mem_cons_self c t))]
    rw [ih (fun d hd => hu d (List.mem_cons_of_mem c hd))]

theorem dropWhile_append_stop {p : Char → Bool} {u : Str} {x : Char} (j : Str)
    (hu : ∀ c ∈ u, p c = true) (hx : p x = false) :
    (u ++ x :: j).dropWhile p = x :: j := by
  induction u with
  | nil => simp [List.dropWhile_cons, hx]
  | cons c t ih =>
    rw [List.cons_append, List.dropWhile_cons_of_pos (hu c (List.mem_cons_self c t))]
    exact ih (fun d hd => hu d (List.mem_cons_of_mem c hd))

theorem splitWs_nil : splitWs [] = [] := rfl

theorem splitWs_cons_ws {c : Char} (h : isRustWs c = true) (s : Str) :
    splitWs (c :: s) = splitWs s := by
  rw [splitWs.eq_def]
  simp [h]

theorem splitWs_cons_word {c : Char} (h : isRustWs c = false) (s : Str) :
    splitWs (c :: s) =
      (c :: s.takeWhile (fun d => !isRustWs d)) ::
        splitWs (s.dropWhile (fun d => !isRustWs d)) := by
  induction s generalizing c with
  | nil =>
    rw [splitWs.eq_def]
    simp [h, splitWs_nil]
  | cons d t ih =>
    by_cases hd : isRustWs d = true
    · rw [splitWs.eq_def]
      rw [List.takeWhile_cons_of_neg (by simp [hd]),
        List.dropWhile_cons_of_neg (by simp [hd])]
      simp [h, hd]
    · have hd' : isRustWs d = false := by simpa using hd
      rw [splitWs.eq_def]
      rw [List.takeWhile_cons_of_pos (by simp [hd']),
        List.dropWhile_cons_of_pos (by simp [hd'])]
      simp only [ih hd']
      simp [h, hd']

theorem splitWs_words {s : Str} :
    ∀ w ∈ splitWs s, w ≠ [] ∧ ∀ c ∈ w, isRustWs c = false := by
  induction s with
  | nil => intro w hw; simp [splitWs_nil] at hw
  | cons c t ih =>
    intro w hw
    by_cases hc : isRustWs c = true
    · rw [splitWs_cons_ws hc] at hw
      exact ih w hw
    · have hc' : isRustWs c = false := by simpa using hc
      cases t with
      | nil =>
        have he : splitWs [c] = [[c]] := by
          rw [splitWs.eq_def]
          simp [hc']
        rw [he] at hw
        simp only [List.mem_singleton] at hw
        subst hw
        refine ⟨by simp, ?_⟩
        intro d hd
        simp only [List.mem_singleton] at hd
        subst hd
        exact hc'
      | cons d t' =>
        by_cases hd : isRustWs d = true
        · have he : splitWs (c :: d :: t') = [c] :: splitWs (d :: t') := by
            rw [splitWs.eq_def]
            simp [hc', hd]
          rw [he] at hw
          rcases List.mem_cons.mp hw with hw | hw
          · subst hw
            refine ⟨by simp, ?_⟩
            intro e he'
            simp only [List.mem_singleton] at he'
            subst he'
            exact hc'
          · exact ih w hw
        · have hd' : isRustWs d = false := by simpa using hd
          cases hr : splitWs (d :: t') with
          | nil =>
            rw [splitWs_cons_word hd'] at hr
            simp at hr
          | cons w₀ ws₀ =>
            have he : splitWs (c :: d :: t') = (c :: w₀) :: ws₀ := by
              rw [splitWs.eq_def]
              simp [hc', hd', hr]
            rw [he] at hw
            rcases List.mem_cons.mp hw with hw | hw
            · subst hw
              obtain ⟨_, hch⟩ := ih w₀ (by rw [hr]; exact List.mem_cons_self _ _)
              refine ⟨by simp, ?_⟩
              intro e he'
              rcases List.mem_cons.mp he' with he' | he'
              · subst he'; exact hc'
              · exact hch e he'
            · exact ih w (by rw [hr]; exact List.mem_cons_of_mem _ hw)

theorem splitWs_joinSep {ws : List Str}
    (h : ∀ w ∈ ws, w ≠ [] ∧ ∀ c ∈ w, isRustWs c = false) :
    splitWs (joinSep [' '] ws) = ws := by
  induction ws with
  | nil => simp [joinSep, splitWs_nil]
  | cons w xs ih =>
    obtain ⟨hw, hwc⟩ := h w (List.mem_cons_self w xs)
    cases hwe : w with
    | nil => exact absurd hwe hw
    | cons c u =>
      subst hwe
      have hc : isRustWs c = false := hwc c (List.mem_cons_self c u)
      have hu : ∀ d ∈ u, (fun d => !isRustWs d) d = true := by
        intro d hd
        simp [hwc d (List.mem_cons_of_mem c hd)]
      cases xs with
      | nil =>
        simp only [joinSep]
        rw [splitWs_cons_word hc, takeWhile_all hu, dropWhile_all hu, splitWs_nil]
      | cons y ys =>
        have hj : joinSep [' '] ((c :: u) :: y :: ys) =
            c :: (u ++ ' ' :: joinSep [' '] (y :: ys)) := by
          rw [joinSep_cons _ _ (by simp)]
          simp
        rw [hj, splitWs_cons_word hc]
        rw [takeWhile_append_stop _ hu (by decide),
          dropWhile_append_stop _ hu (by decide)]
        rw [splitWs_cons_ws (by decide) _]
        rw [ih (fun v hv => h v (List.mem_cons_of_mem _ hv))]

theorem splitWs_ne_nil {c : Char} (h : isRustWs c = false) (s : Str) :
    splitWs (c :: s) ≠ [] := by
  rw [splitWs_cons_word h]
  simp

theorem contains_eq_false {l : Str} {c : Char} : l.contains c = false ↔ c ∉ l := by
  simp [List.contains]

/-! ## Inversion and introduction lemmas for the value-type constructors -/

theorem not_contains_true {l : Str} {c : Char} (h : ¬(l.contains c = true)) :
    c ∉ l := by
  intro hm
  exact h (by simp [List.contains, hm])

theorem scope_fromStr_ok_inv {raw : Str} {v : CommitScope}
    (h : CommitScope.fromStr raw = .ok v) :
    v.text = trim raw ∧ trim raw ≠ [] ∧ '\n' ∉ trim raw ∧ '\r' ∉ trim raw ∧
      ')' ∉ trim raw := by
  obtain ⟨t⟩ := v
  simp only [CommitScope.fromStr] at h
  split_ifs at h with h1 h2 h3
  injection h with h4
  injection h4 with h5
  rw [Bool.or_eq_true] at h2
  push_neg at h2
  exact ⟨h5.symm, h1, not_contains_true h2.1, not_contains_true h2.2,
    not_contains_true h3⟩

theorem scope_fromStr_mk {x : Str} (h0 : trim x = x) (h1 : x ≠ [])
    (h2 : '\n' ∉ x) (h3 : '\r' ∉ x) (h4 : ')' ∉ x) :
    CommitScope.fromStr x = .ok ⟨x⟩ := by
  simp only [CommitScope.fromStr, h0]
  rw [if_neg h1, if_neg (by simp [List.contains, h2, h3]),
    if_neg (by simp [List.contains, h4])]

theorem note_fromStr_ok_inv {raw : Str} {v : BreakingNote}
    (h : BreakingNote.fromStr raw = .ok v) :
    v.text = trim raw ∧ trim raw ≠ [] ∧ '\n' ∉ trim raw ∧ '\r' ∉ trim raw := by
  obtain ⟨t⟩ := v
  simp only [BreakingNote.fromStr] at h
  split_ifs at h with h1 h2
  injection h with h4
  injection h4 with h5
  rw [Bool.or_eq_true] at h2
  push_neg at h2
  exact ⟨h5.symm, h1, not_contains_true h2.1, not_contains_true h2.2⟩

theorem note_fromStr_mk {x : Str} (h0 : trim x = x) (h1 : x ≠ [])
    (h2 : '\n' ∉ x) (h3 : '\r' ∉ x) :
    BreakingNote.fromStr x = .ok ⟨x⟩ := by
  simp only [BreakingNote.fromStr, h0]
  rw [if_neg h1, if_neg (by simp [List.contains, h2, h3])]

theorem body_fromStr_ok_inv {raw : Str} {v : CommitBody}
    (h : CommitBody.fromStr raw = .ok v) :
    v.text = trim raw ∧ trim raw ≠ [] ∧
      ∀ l ∈ rsLines (trim raw), l = [] ∨ utf8Len l ≤ BODY_LINE_MAX_LEN := by
  obtain ⟨t⟩ := v
  simp only [CommitBody.fromStr] at h
  split_ifs at h with h1
  cases hf : (rsLines (trim raw)).find?
      (fun l => !l.isEmpty && decide (BODY_LINE_MAX_LEN < utf8Len l)) with
  | some l => rw [hf] at h; exact absurd h (by simp)
  | none =>
    rw [hf] at h
    injection h with h4
    injection h4 with h5
    refine ⟨h5.symm, h1, ?_⟩
    intro l hl
    have := List.find?_eq_none.mp hf l hl
    simp only [Bool.and_eq_true, Bool.not_eq_true', List.isEmpty_iff,
      decide_eq_true_eq, not_and, not_lt] at this
    by_cases hle : l = []
    · exact Or.inl hle
    · exact Or.inr (this (by simpa using hle))

theorem body_fromStr_mk {x : Str} (h0 : trim x = x) (h1 : x ≠ [])
    (h2 : ∀ l ∈ rsLines x, l = [] ∨ utf8Len l ≤ BODY_LINE_MAX_LEN) :
    CommitBody.fromStr x = .ok ⟨x⟩ := by
  simp only [CommitBody.fromStr, h0]
  rw [if_neg h1]
  have hf : (rsLines x).find?
      (fun l => !l.isEmpty && decide (BODY_LINE_MAX_LEN < utf8Len l)) = none := by
    rw [List.find?_eq_none]
    intro l hl
    rcases h2 l hl with h | h
    · simp [h]
    · simp only [Bool.and_eq_true, Bool.not_eq_true', List.isEmpty_iff,
        decide_eq_true_eq, not_and, not_lt]
      intro _
      exact h
  rw [hf]

theorem summary_fromStr_ok_inv {raw : Str} {v : CommitSummary}
    (h : CommitSummary.fromStr raw = .ok v) :
    v.text = joinSep [' '] (splitWs (trim raw)) ∧ trim raw ≠ [] ∧
      endsWithC '.' v.text = false := by
  obtain ⟨t⟩ := v
  simp only [CommitSummary.fromStr] at h
  split_ifs at h with h1 h2 h3
  injection h with h4
  injection h4 with h5
  refine ⟨h5.symm, h1, ?_⟩
  simp only [← h5]
  simpa using h3

/-! ## The subject format, as the specification words it -/

/-- The canonical subject string as the specification describes it:
the type, a parenthesised scope when present, a bang exactly when a
breaking note is present, then `": "` and the summary. -/
def specSubjectFormat (commitType : CommitType) (scope : Option CommitScope)
    (summary : CommitSummary) (hasBang : Bool) : Str :=
  commitType.asStr ++
    (match scope with
     | some sc => '(' :: sc.text ++ [')']
     | none => []) ++
    (if hasBang then ['!'] else []) ++ ':' :: ' ' :: summary.text

theorem subjectText_eq_format (commitType : CommitType) (scope : Option CommitScope)
    (summary : CommitSummary) (hasBang : Bool) :
    subjectText commitType scope summary hasBang =
      specSubjectFormat commitType scope summary hasBang := by
  cases scope <;> simp [subjectText, specSubjectFormat]

/-! ## Claim C7: the commit-type round trip and the invalid case -/

theorem commitType_fromStr_congr {a b : Str} (h : trim a = trim b) :
    CommitType.fromStr a = CommitType.fromStr b := by
  simp only [CommitType.fromStr, h]

theorem trim_asStr (t : CommitType) : trim t.asStr = t.asStr := by
  cases t <;> decide

theorem commitType_fromStr_invalid (s : Str) (hs : trim s = s)
    (hne : ∀ t : CommitType, s ≠ t.asStr) :
    CommitType.fromStr s = .error (.commitTypeInvalid s CommitType.allowedList) := by
  simp only [CommitType.fromStr, hs]
  rw [if_neg (show s ≠ ['f', 'i', 'x'] from hne .fix),
    if_neg (show s ≠ ['f', 'e', 'a', 't'] from hne .feat),
    if_neg (show s ≠ ['d', 'o', 'c', 's'] from hne .docs),
    if_neg (show s ≠ ['s', 't', 'y', 'l', 'e'] from hne .style),
    if_neg (show s ≠ ['r', 'e', 'f', 'a', 'c', 't', 'o', 'r'] from hne .refactor),
    if_neg (show s ≠ ['p', 'e', 'r', 'f'] from hne .perf),
    if_neg (show s ≠ ['t', 'e', 's', 't'] from hne .test),
    if_neg (show s ≠ ['b', 'u', 'i', 'l', 'd'] from hne .build),
    if_neg (show s ≠ ['c', 'h', 'o', 'r', 'e'] from hne .chore),
    if_neg (show s ≠ ['c', 'i'] from hne .ci),
    if_neg (show s ≠ ['r', 'e', 'v', 'e', 'r', 't'] from hne .revert)]

/-- C7: parsing the literal string form of each of the eleven commit types
returns that same type (a total round trip); parsing is exact and
case-sensitive on the trimmed input (`from_str` succeeds exactly when the
trimmed input is the literal form of the result); every trimmed input
outside the closed set fails with `CommitTypeInvalid` whose `allowed` field
is the fixed space-joined list of the eleven names in declaration order. -/
theorem commitType_roundtrip_and_invalid :
    (∀ t : CommitType, CommitType.fromStr t.asStr = .ok t) ∧
    (∀ (s : Str) (t : CommitType),
      CommitType.fromStr s = .ok t ↔ trim s = t.asStr) ∧
    (∀ s : Str, trim s = s → (∀ t : CommitType, s ≠ t.asStr) →
      CommitType.fromStr s = .error (.commitTypeInvalid s CommitType.allowedList)) ∧
    CommitType.allowedList =
      "fix feat docs style refactor perf test build chore ci revert".data := by
  have roundtrip : ∀ t : CommitType, CommitType.fromStr t.asStr = .ok t := by
    intro t
    cases t <;> decide
  refine ⟨roundtrip, ?_, commitType_fromStr_invalid, by decide⟩
  intro s t
  constructor
  · intro h
    by_cases hmem : ∃ u : CommitType, trim s = u.asStr
    · obtain ⟨u, hu⟩ := hmem
      have hok : CommitType.fromStr s = .ok u := by
        rw [commitType_fromStr_congr (b := u.asStr) (by rw [hu, trim_asStr])]
        exact roundtrip u
      rw [hok] at h
      injection h with h'
      subst h'
      exact hu
    · push_neg at hmem
      have herr := commitType_fromStr_invalid (trim s) (trim_idem s) hmem
      rw [commitType_fromStr_congr (b := trim s) (trim_idem s).symm, herr] at h
      exact Except.noConfusion h
  · intro h
    rw [commitType_fromStr_congr (b := t.asStr) (by rw [h, trim_asStr])]
    exact roundtrip t

/-- Witness for C7 at concrete inputs: `feat` round-trips, and the trimmed
non-member `Feat` is rejected with the fixed allowed list. -/
theorem commitType_roundtrip_and_invalid_witness :
    CommitType.fromStr ("feat".data) = .ok .feat ∧
    CommitType.fromStr ("Feat".data) =
      .error (.commitTypeInvalid ("Feat".data) CommitType.allowedList) :=
  ⟨commitType_roundtrip_and_invalid.1 .feat,
   commitType_roundtrip_and_invalid.2.2.1 ("Feat".data) (by decide)
     (by intro t; cases t <;> decide)⟩

/-! ## Claim C3: the over-length subject error and its budget formula -/

/-- C3: when the composed subject exceeds the 50-byte ceiling,
`CommitSubject::new` fails with `SubjectTooLong` whose `budget` is 50 minus
the length of the subject with the summary substring removed by literal
substring replacement (saturating at zero, as the truncated subtraction on
`Nat` models `saturating_sub`); `validate_subject_length` applies the same
formula to the raw subject line. -/
theorem subject_too_long_budget :
    (∀ (t : CommitType) (scope : Option CommitScope) (summary : CommitSummary)
        (note : Option BreakingNote),
      SUBJECT_MAX_LEN < utf8Len (specSubjectFormat t scope summary note.isSome) →
      CommitSubject.new t scope summary note =
        .error (.subjectTooLong
          (utf8Len (specSubjectFormat t scope summary note.isSome))
          (SUBJECT_MAX_LEN - utf8Len (replaceAll summary.text []
            (specSubjectFormat t scope summary note.isSome)))
          (specSubjectFormat t scope summary note.isSome))) ∧
    (∀ subject summaryStr : Str, SUBJECT_MAX_LEN < utf8Len subject →
      validateSubjectLength subject summaryStr =
        .error (.subjectTooLong (utf8Len subject)
          (SUBJECT_MAX_LEN - utf8Len (replaceAll summaryStr [] subject)) subject)) := by
  constructor
  · intro t scope summary note h
    simp only [CommitSubject.new, subjectText_eq_format]
    rw [if_pos h]
  · intro subject summaryStr h
    rw [validateSubjectLength, if_neg (by omega)]

/-- Witness for C3: a 61-byte subject is rejected with budget
`50 - 22 = 28` (the prefix `refactor(components): ` keeps 22 bytes after
the summary is replaced away). -/
theorem subject_too_long_budget_witness :
    SUBJECT_MAX_LEN < utf8Len (specSubjectFormat .refactor (some ⟨"components".data⟩)
      ⟨"Tidy up all the modules again and again".data⟩ (none : Option BreakingNote).isSome) ∧
    CommitSubject.new .refactor (some ⟨"components".data⟩)
      ⟨"Tidy up all the modules again and again".data⟩ none =
      .error (.subjectTooLong 61 28
        ("refactor(components): Tidy up all the modules again and again".data)) ∧
    validateSubjectLength
      ("refactor(components): Tidy up all the modules again and again".data)
      ("Tidy up all the modules again and again".data) =
      .error (.subjectTooLong 61 28
        ("refactor(components): Tidy up all the modules again and again".data)) := by
  refine ⟨by decide, ?_, ?_⟩
  · have := subject_too_long_budget.1 .refactor (some ⟨"components".data⟩)
      ⟨"Tidy up all the modules again and again".data⟩ none (by decide)
    rw [this]
    decide
  · have := subject_too_long_budget.2
      ("refactor(components): Tidy up all the modules again and again".data)
      ("Tidy up all the modules again and again".data) (by decide)
    rw [this]
    decide

/-! ## Claim C4: subject construction under the length ceiling -/

/-- C4 as stated (with the ceiling measured in characters) is false on the
code: a subject of 35 characters but 65 UTF-8 bytes, built from a
successfully constructed summary of thirty two-byte characters, is
rejected by `CommitSubject::new` even though its character count is at
most 50. -/
theorem subject_new_chars_counterexample :
    (specSubjectFormat .fix none ⟨List.replicate 30 'é'⟩ false).length = 35 ∧
    (specSubjectFormat .fix none ⟨List.replicate 30 'é'⟩ false).length ≤ SUBJECT_MAX_LEN ∧
    CommitSummary.fromStr (List.replicate 30 'é') = .ok ⟨List.replicate 30 'é'⟩ ∧
    CommitSubject.new .fix none ⟨List.replicate 30 'é'⟩ none =
      .error (.subjectTooLong 65 45 (specSubjectFormat .fix none ⟨List.replicate 30 'é'⟩ false)) := by
  refine ⟨by decide, by decide, by decide, ?_⟩
  rw [CommitSubject.new, if_pos (by decide)]
  simp only [subjectText_eq_format]
  decide

/-- C4 amended: for every type, optional scope, summary and optional note
whose composed subject is at most 50 UTF-8 bytes long (the code measures
`str::len`, not characters), `CommitSubject::new` succeeds and its text is
the canonical `type(scope)!: summary` form, the bang present exactly when
a note is given. -/
theorem subject_new_ok (t : CommitType) (scope : Option CommitScope)
    (summary : CommitSummary) (note : Option BreakingNote)
    (h : utf8Len (specSubjectFormat t scope summary note.isSome) ≤ SUBJECT_MAX_LEN) :
    CommitSubject.new t scope summary note =
      .ok ⟨specSubjectFormat t scope summary note.isSome⟩ := by
  simp only [CommitSubject.new, subjectText_eq_format]
  rw [if_neg (by omega)]

/-- Witness for the amended C4: `feat(ui)!: Add button` (21 bytes) is
accepted with exactly that text. -/
theorem subject_new_ok_witness :
    utf8Len (specSubjectFormat .feat (some ⟨"ui".data⟩) ⟨"Add button".data⟩
      (some (⟨"x".data⟩ : BreakingNote)).isSome) ≤ SUBJECT_MAX_LEN ∧
    CommitSubject.new .feat (some ⟨"ui".data⟩) ⟨"Add button".data⟩
      (some ⟨"x".data⟩) = .ok ⟨"feat(ui)!: Add button".data⟩ := by
  refine ⟨by decide, ?_⟩
  rw [subject_new_ok .feat (some ⟨"ui".data⟩) ⟨"Add button".data⟩
    (some ⟨"x".data⟩) (by decide)]
  decide

/-! ## Claim C2: the body line length is measured in bytes, not characters -/

/-- C2: the code contradicts its own error text on non-ASCII input.  A
single body line of 37 two-byte characters (37 characters, 74 UTF-8 bytes)
is rejected as `BodyLineTooLong` with `len = 74` — the rendered message
would claim the line has 74 characters and exceeds the 72-character
ceiling, although it has only 37 characters; the spec's character-based
reading accepts it.  On ASCII input the byte and character counts agree:
one line of 73 `x` characters is rejected with `len = 73` exactly as the
claim states. -/
theorem body_line_byte_length_eval :
    (List.replicate 37 'é').length = 37 ∧
    (List.replicate 37 'é').length ≤ BODY_LINE_MAX_LEN ∧
    CommitBody.fromStr (List.replicate 37 'é') =
      .error (.bodyLineTooLong 74 (List.replicate 37 'é')) ∧
    CommitBody.fromStr (List.replicate 73 'x') =
      .error (.bodyLineTooLong 73 (List.replicate 73 'x')) := by
  refine ⟨by decide, by decide, by decide, by decide⟩

/-! ## Claim C9: idempotence of the value-type constructors -/

/-- Structural facts about the text stored by a successfully constructed
summary: nonempty, already trimmed, free of line breaks, and a fixed point
of the collapse-whitespace normalisation. -/
theorem summary_text_props {raw : Str} {v : CommitSummary}
    (h : CommitSummary.fromStr raw = .ok v) :
    v.text ≠ [] ∧ trim v.text = v.text ∧ '\n' ∉ v.text ∧ '\r' ∉ v.text ∧
      joinSep [' '] (splitWs v.text) = v.text := by
  obtain ⟨htext, hne, _⟩ := summary_fromStr_ok_inv h
  have hwords : ∀ w ∈ splitWs (trim raw), w ≠ [] ∧ ∀ c ∈ w, isRustWs c = false :=
    splitWs_words
  have hround : splitWs v.text = splitWs (trim raw) := by
    rw [htext, splitWs_joinSep hwords]
  obtain ⟨c, r, hcr⟩ := List.exists_cons_of_ne_nil hne
  have hc : isRustWs c = false :=
    @trim_head_not_ws (trim raw) c r (by rw [trim_idem, hcr])
  have hws_ne : splitWs (trim raw) ≠ [] := by
    rw [hcr]
    exact splitWs_ne_nil hc _
  obtain ⟨w₀, ws₀, hsplit⟩ := List.exists_cons_of_ne_nil hws_ne
  obtain ⟨hw₀ne, hw₀ch⟩ := hwords w₀ (by rw [hsplit]; exact List.mem_cons_self _ _)
  have hhead : v.text.head? = w₀.head? := by
    rw [htext, hsplit]
    exact joinSep_head hw₀ne
  obtain ⟨init, wl, hconcat⟩ := (List.eq_nil_or_concat (splitWs (trim raw))).resolve_left hws_ne
  rw [List.concat_eq_append] at hconcat
  obtain ⟨hwlne, hwlch⟩ := hwords wl (by rw [hconcat]; exact List.mem_append_right _ (by simp))
  have hlast : v.text.getLast? = wl.getLast? := by
    rw [htext, hconcat]
    exact joinSep_getLast hwlne
  have htextne : v.text ≠ [] := by
    intro hnil
    obtain ⟨c₀, r₀, hw0⟩ := List.exists_cons_of_ne_nil hw₀ne
    rw [hnil, hw0] at hhead
    simp at hhead
  have htr : trim v.text = v.text := by
    apply trim_eq_self
    · intro d hd
      rw [hhead] at hd
      obtain ⟨ys, hys⟩ := List.head?_eq_some_iff.mp hd
      exact hw₀ch d (by rw [hys]; exact List.mem_cons_self _ _)
    · intro d hd
      rw [hlast] at hd
      obtain ⟨ys, hys⟩ := List.getLast?_eq_some_iff.mp hd
      exact hwlch d (by rw [hys]; exact List.mem_append_right _ (by simp))
  have hnomem : ∀ e : Char, isRustWs e = true → e ≠ ' ' → e ∉ v.text := by
    intro e hews hesp hm
    rw [htext] at hm
    rcases mem_joinSep hm with hm | ⟨w, hw, hm⟩
    · simp only [List.mem_singleton] at hm
      exact hesp hm
    · have := (hwords w hw).2 e hm
      rw [this] at hews
      exact Bool.noConfusion hews
  exact ⟨htextne, htr, hnomem '\n' (by decide) (by decide),
    hnomem '\r' (by decide) (by decide), by rw [hround, ← htext]⟩

/-- C9: feeding the stored text of a successfully constructed
`CommitSummary`, `CommitScope`, `CommitBody` or `BreakingNote` back into
the same constructor succeeds and returns the same value. -/
theorem constructors_idempotent :
    (∀ (raw : Str) (v : CommitSummary), CommitSummary.fromStr raw = .ok v →
      CommitSummary.fromStr v.text = .ok v) ∧
    (∀ (raw : Str) (v : CommitScope), CommitScope.fromStr raw = .ok v →
      CommitScope.fromStr v.text = .ok v) ∧
    (∀ (raw : Str) (v : CommitBody), CommitBody.fromStr raw = .ok v →
      CommitBody.fromStr v.text = .ok v) ∧
    (∀ (raw : Str) (v : BreakingNote), BreakingNote.fromStr raw = .ok v →
      BreakingNote.fromStr v.text = .ok v) := by
  refine ⟨?_, ?_, ?_, ?_⟩
  · intro raw v h
    obtain ⟨hne, htr, hnl, hnr, hjoin⟩ := summary_text_props h
    obtain ⟨_, _, hdot⟩ := summary_fromStr_ok_inv h
    simp only [CommitSummary.fromStr, htr]
    rw [if_neg hne, if_neg (by simp [List.contains, hnl, hnr]), hjoin,
      if_neg (by simp [hdot])]
  · intro raw v h
    obtain ⟨htext, hne, hnl, hnr, hpar⟩ := scope_fromStr_ok_inv h
    have := scope_fromStr_mk (x := v.text) (by rw [htext, trim_idem])
      (by rw [htext]; exact hne) (by rw [htext]; exact hnl)
      (by rw [htext]; exact hnr) (by rw [htext]; exact hpar)
    exact this
  · intro raw v h
    obtain ⟨htext, hne, hlines⟩ := body_fromStr_ok_inv h
    have := body_fromStr_mk (x := v.text) (by rw [htext, trim_idem])
      (by rw [htext]; exact hne) (by rw [htext]; exact hlines)
    exact this
  · intro raw v h
    obtain ⟨htext, hne, hnl, hnr⟩ := note_fromStr_ok_inv h
    have := note_fromStr_mk (x := v.text) (by rw [htext, trim_idem])
      (by rw [htext]; exact hne) (by rw [htext]; exact hnl)
      (by rw [htext]; exact hnr)
    exact this

/-- Witness for C9: each constructor applied to the stored text of a value
it produced returns that value unchanged. -/
theorem constructors_idempotent_witness :
    CommitSummary.fromStr ("Hello there".data) = .ok ⟨"Hello there".data⟩ ∧
    CommitScope.fromStr ("ui".data) = .ok ⟨"ui".data⟩ ∧
    CommitBody.fromStr ("Body text".data) = .ok ⟨"Body text".data⟩ ∧
    BreakingNote.fromStr ("Old API removed".data) = .ok ⟨"Old API removed".data⟩ :=
  ⟨constructors_idempotent.1 ("  Hello   there ".data) ⟨"Hello there".data⟩ (by decide),
   constructors_idempotent.2.1 (" ui ".data) ⟨"ui".data⟩ (by decide),
   constructors_idempotent.2.2.1 (" Body text ".data) ⟨"Body text".data⟩ (by decide),
   constructors_idempotent.2.2.2 (" Old API removed ".data) ⟨"Old API removed".data⟩
     (by decide)⟩

/-! ## Claim C5: the body/footer split -/

theorem breakingIdxs_nil_iff {content : List Str} :
    breakingIdxs content = [] ↔ ∀ l ∈ content, isPre bcKey (ltrim l) = false := by
  rw [breakingIdxs, List.filter_eq_nil_iff]
  constructor
  · intro h l hl
    obtain ⟨i, hi, hgl⟩ := List.mem_iff_getElem.mp hl
    have := h i (List.mem_range.mpr hi)
    rw [List.getD_eq_getElem?_getD, List.getElem?_eq_getElem hi, Option.getD_some, hgl] at this
    simpa using this
  · intro h i hi
    rw [List.mem_range] at hi
    rw [List.getD_eq_getElem?_getD, List.getElem?_eq_getElem hi, Option.getD_some]
    simp [h _ (List.getElem_mem hi)]

theorem breakingIdxs_mem {content : List Str} {i : Nat} :
    i ∈ breakingIdxs content ↔
      i < content.length ∧ isPre bcKey (ltrim (content.getD i [])) = true := by
  rw [breakingIdxs, List.mem_filter, List.mem_range]

theorem breakingIdxs_single {content : List Str} (hne : content ≠ [])
    (hlast : isPre bcKey (ltrim (content.getD (content.length - 1) [])) = true)
    (hothers : ∀ i < content.length - 1, isPre bcKey (ltrim (content.getD i [])) = false) :
    breakingIdxs content = [content.length - 1] := by
  rw [breakingIdxs]
  have hpos : 0 < content.length := List.length_pos.mpr hne
  have hn : content.length = (content.length - 1) + 1 := by omega
  rw [hn, List.range_succ, List.filter_append]
  have h1 : (List.range (content.length - 1)).filter
      (fun i => isPre bcKey (ltrim (content.getD i []))) = [] := by
    rw [List.filter_eq_nil_iff]
    intro i hi
    rw [List.mem_range] at hi
    intro hc
    rw [hothers i hi] at hc
    exact Bool.noConfusion hc
  rw [h1, List.nil_append]
  rw [List.filter_cons_of_pos (by exact hlast)]
  rfl

theorem getLastD_eq_getD (l : List Str) :
    (l.getLast?).getD [] = l.getD (l.length - 1) [] := by
  rw [List.getLast?_eq_getElem?, List.getD_eq_getElem?_getD]

/-- C5: the behaviour of `split_body_and_breaking_footer`.  When no
content line's left-trimmed text starts with `BREAKING CHANGE:`, the whole
content is the body and no note is extracted.  When some such line other
than the last exists (in particular when there are several of them), the
result is `MessageBreakingFooterNotLast`.  When exactly the last line is
such a footer: an empty extracted note gives `BreakingNoteEmpty`; with a
nonempty note, a single-line content yields an empty body and the note,
and a longer content requires the line right before the footer to be
whitespace-only — otherwise `MessageBreakingFooterNotLast` — and yields
the content minus its last two lines as the body, with the note. -/
theorem splitBodyFooter_spec (content : List Str) :
    ((∀ l ∈ content, isPre bcKey (ltrim l) = false) →
      splitBodyAndBreakingFooter content = .ok (content, none)) ∧
    ((∃ i, i < content.length - 1 ∧ isPre bcKey (ltrim (content.getD i [])) = true) →
      splitBodyAndBreakingFooter content = .error .messageBreakingFooterNotLast) ∧
    (content ≠ [] →
      isPre bcKey (ltrim (content.getD (content.length - 1) [])) = true →
      (∀ i < content.length - 1, isPre bcKey (ltrim (content.getD i [])) = false) →
      (footerNote (content.getD (content.length - 1) []) = [] →
        splitBodyAndBreakingFooter content = .error .breakingNoteEmpty) ∧
      (footerNote (content.getD (content.length - 1) []) ≠ [] →
        (content.length = 1 →
          splitBodyAndBreakingFooter content =
            .ok ([], some (footerNote (content.getD (content.length - 1) [])))) ∧
        (1 < content.length →
          (isBlankL (content.getD (content.length - 2) []) = false →
            splitBodyAndBreakingFooter content = .error .messageBreakingFooterNotLast) ∧
          (isBlankL (content.getD (content.length - 2) []) = true →
            splitBodyAndBreakingFooter content =
              .ok (content.take (content.length - 2),
                some (footerNote (content.getD (content.length - 1) []))))))) := by
  refine ⟨?_, ?_, ?_⟩
  · intro h
    rw [splitBodyAndBreakingFooter]
    simp only [breakingIdxs_nil_iff.mpr h]
    rfl
  · rintro ⟨i, hi, hp⟩
    have hlen : i < content.length := by omega
    have hmem : i ∈ breakingIdxs content := breakingIdxs_mem.mpr ⟨hlen, hp⟩
    have hne : breakingIdxs content ≠ [] := List.ne_nil_of_mem hmem
    rw [splitBodyAndBreakingFooter]
    simp only []
    rw [if_neg hne, if_pos ?_]
    by_contra hcond
    push_neg at hcond
    obtain ⟨h1, h2⟩ := hcond
    obtain ⟨a, ha⟩ := List.length_eq_one.mp h1
    rw [ha] at hmem h2
    simp only [List.headD_cons] at h2
    simp only [List.mem_singleton] at hmem
    omega
  · intro hne hlast hothers
    have hidx := breakingIdxs_single hne hlast hothers
    have hsplit : splitBodyAndBreakingFooter content =
        (if footerNote ((content.getLast?).getD []) = [] then
          .error .breakingNoteEmpty
        else if content.length = 1 then
          .ok ([], some (footerNote ((content.getLast?).getD [])))
        else if !isBlankL (content.getD (content.length - 2) []) then
          .error .messageBreakingFooterNotLast
        else
          .ok (content.take (content.length - 2),
            some (footerNote ((content.getLast?).getD [])))) := by
      rw [splitBodyAndBreakingFooter]
      simp only [hidx]
      rw [if_neg (by simp), if_neg (by simp)]
    rw [getLastD_eq_getD] at hsplit
    constructor
    · intro hempty
      rw [hsplit, if_pos hempty]
    · intro hnempty
      constructor
      · intro hone
        rw [hsplit, if_neg hnempty, if_pos hone]
      · intro hgt
        constructor
        · intro hblank
          rw [hsplit, if_neg hnempty, if_neg (by omega), if_pos (by rw [hblank]; rfl)]
        · intro hblank
          rw [hsplit, if_neg hnempty, if_neg (by omega), if_neg (by rw [hblank]; simp)]

/-- Witness for C5: a two-line content whose last line is the breaking
footer and whose first line is blank splits into an empty body and the
note `Old`. -/
theorem splitBodyFooter_spec_witness :
    splitBodyAndBreakingFooter [[], ("BREAKING CHANGE: Old".data)] =
      .ok ([], some ("Old".data)) := by
  have h := ((splitBodyFooter_spec [[], ("BREAKING CHANGE: Old".data)]).2.2
    (by decide) (by decide)
    (by
      intro i hi
      simp only [List.length_cons, List.length_nil] at hi
      have : i = 0 := by omega
      subst this
      decide)).2 (by decide)
  have h2 := (h.2 (by decide)).2 (by decide)
  rw [h2]
  decide

/-! ## Claim C10: the BodyEmpty error is unreachable through the validator -/

theorem mem_joinSep_of_mem {c : Char} {sep : Str} :
    ∀ {ls : List Str} {l : Str}, l ∈ ls → c ∈ l → c ∈ joinSep sep ls
  | [], _, hl, _ => by cases hl
  | x :: xs, l, hl, hc => by
    cases xs with
    | nil =>
      have hx : l = x := by simpa using hl
      subst hx
      simpa [joinSep] using hc
    | cons y ys =>
      have hjoin : joinSep sep (x :: y :: ys) = x ++ sep ++ joinSep sep (y :: ys) := rfl
      rw [hjoin]
      rcases List.mem_cons.mp hl with h | h
      · subst h
        exact List.mem_append_left _ (List.mem_append_left _ hc)
      · exact List.mem_append_right _ (mem_joinSep_of_mem h hc)

theorem trim_join_ne_nil_of_hasNonEmptyBody {bl : List Str}
    (h : hasNonEmptyBody bl = true) : trim (joinSep ['\n'] bl) ≠ [] := by
  rw [hasNonEmptyBody, List.any_eq_true] at h
  obtain ⟨l, hl, hnb⟩ := h
  have hex : ∃ d ∈ l, isRustWs d = false := by
    by_contra hall
    push_neg at hall
    have hblank : isBlankL l = true := isBlankL_iff.mpr (by
      intro d hd
      cases hw : isRustWs d
      · exact absurd hw (hall d hd)
      · rfl)
    rw [hblank] at hnb
    exact Bool.noConfusion hnb
  obtain ⟨d, hd, hdw⟩ := hex
  intro htrim
  have hmem : d ∈ joinSep ['\n'] bl := mem_joinSep_of_mem hl hd
  have hws := trim_eq_nil_iff.mp htrim d hmem
  rw [hws] at hdw
  exact Bool.noConfusion hdw

theorem commitType_ne_bodyEmpty (raw : Str) :
    CommitType.fromStr raw ≠ .error .bodyEmpty := by
  intro h
  by_cases hmem : ∃ t : CommitType, trim raw = t.asStr
  · obtain ⟨t, ht⟩ := hmem
    rw [commitType_fromStr_congr (b := t.asStr) (by rw [ht, trim_asStr])] at h
    have hok : CommitType.fromStr t.asStr = .ok t := by cases t <;> decide
    rw [hok] at h
    exact Except.noConfusion h
  · push_neg at hmem
    rw [commitType_fromStr_congr (b := trim raw) (trim_idem raw).symm,
      commitType_fromStr_invalid (trim raw) (trim_idem raw) hmem] at h
    injection h with h2
    exact ValidationError.noConfusion h2

theorem summary_ne_bodyEmpty (raw : Str) :
    CommitSummary.fromStr raw ≠ .error .bodyEmpty := by
  intro h
  simp only [CommitSummary.fromStr] at h
  split_ifs at h <;> simp at h

theorem scope_ne_bodyEmpty (raw : Str) :
    CommitScope.fromStr raw ≠ .error .bodyEmpty := by
  intro h
  simp only [CommitScope.fromStr] at h
  split_ifs at h <;> simp at h

theorem note_ne_bodyEmpty (raw : Str) :
    BreakingNote.fromStr raw ≠ .error .bodyEmpty := by
  intro h
  simp only [BreakingNote.fromStr] at h
  split_ifs at h <;> simp at h

theorem body_fromStr_bodyEmpty_inv {raw : Str}
    (h : CommitBody.fromStr raw = .error .bodyEmpty) : trim raw = [] := by
  simp only [CommitBody.fromStr] at h
  split_ifs at h with h1
  · exact h1
  · exfalso
    cases hf : (rsLines (trim raw)).find?
        (fun l => !l.isEmpty && decide (BODY_LINE_MAX_LEN < utf8Len l)) with
    | some l =>
      rw [hf] at h
      injection h with h2
      exact ValidationError.noConfusion h2
    | none =>
      rw [hf] at h
      exact Except.noConfusion h

theorem subjectNew_ne_bodyEmpty (t : CommitType) (sc : Option CommitScope)
    (su : CommitSummary) (nt : Option BreakingNote) :
    CommitSubject.new t sc su nt ≠ .error .bodyEmpty := by
  intro h
  rw [CommitSubject.new] at h
  split_ifs at h <;> simp at h

theorem validateSubjectLength_ne_bodyEmpty (s su : Str) :
    validateSubjectLength s su ≠ .error .bodyEmpty := by
  intro h
  rw [validateSubjectLength] at h
  split_ifs at h <;> simp at h

theorem splitBodyFooter_ne_bodyEmpty (content : List Str) :
    splitBodyAndBreakingFooter content ≠ .error .bodyEmpty := by
  intro h
  simp only [splitBodyAndBreakingFooter] at h
  split_ifs at h <;> simp at h

theorem parseSubjectLine_ne_bodyEmpty (s : Str) :
    parseSubjectLine s ≠ .error .bodyEmpty := by
  intro h
  rw [parseSubjectLine.eq_def] at h
  simp only [] at h
  repeat' split at h
  all_goals
    first
      | exact Except.noConfusion h
      | (injection h with h2; exact ValidationError.noConfusion h2)
      | (injection h with h2; subst h2;
         exact absurd (by assumption) (commitType_ne_bodyEmpty _))
      | (injection h with h2; subst h2;
         exact absurd (by assumption) (summary_ne_bodyEmpty _))

theorem transposeScope_ne_bodyEmpty (sc : Option Str) :
    transposeScope sc ≠ .error .bodyEmpty := by
  intro h
  rw [transposeScope.eq_def] at h
  repeat' split at h
  all_goals
    first
      | exact Except.noConfusion h
      | (injection h with h2; subst h2;
         exact absurd (by assumption) (scope_ne_bodyEmpty _))

theorem transposeNote_ne_bodyEmpty (nt : Option Str) :
    transposeNote nt ≠ .error .bodyEmpty := by
  intro h
  rw [transposeNote.eq_def] at h
  repeat' split at h
  all_goals
    first
      | exact Except.noConfusion h
      | (injection h with h2; subst h2;
         exact absurd (by assumption) (note_ne_bodyEmpty _))

theorem rebuildSubject_ne_bodyEmpty (t : CommitType) (sc : Option Str)
    (su : CommitSummary) (nt : Option Str) :
    rebuildSubject t sc su nt ≠ .error .bodyEmpty := by
  intro h
  rw [rebuildSubject.eq_def] at h
  repeat' split at h
  all_goals
    first
      | exact Except.noConfusion h
      | (injection h with h2; subst h2;
         exact absurd (by assumption) (transposeScope_ne_bodyEmpty _))
      | (injection h with h2; subst h2;
         exact absurd (by assumption) (transposeNote_ne_bodyEmpty _))
      | (injection h with h2; subst h2;
         exact absurd (by assumption) (subjectNew_ne_bodyEmpty _ _ _ _))

theorem validateBodyAndRebuild_ne_bodyEmpty (t : CommitType) (sc : Option Str)
    (su : CommitSummary) (bl : List Str) (nt : Option Str) :
    validateBodyAndRebuild t sc su bl nt ≠ .error .bodyEmpty := by
  intro h
  rw [validateBodyAndRebuild.eq_def] at h
  repeat' split at h
  all_goals
    first
      | exact Except.noConfusion h
      | exact rebuildSubject_ne_bodyEmpty _ _ _ _ h
      | (injection h with h2; subst h2;
         exact absurd (body_fromStr_bodyEmpty_inv (by assumption))
           (trim_join_ne_nil_of_hasNonEmptyBody (by assumption)))

theorem crossCheckAndFinish_ne_bodyEmpty (t : CommitType) (sc : Option Str)
    (su : CommitSummary) (bg : Bool) (bl : List Str) (nt : Option Str) :
    crossCheckAndFinish t sc su bg bl nt ≠ .error .bodyEmpty := by
  intro h
  rw [crossCheckAndFinish.eq_def] at h
  repeat' split at h
  all_goals
    first
      | exact Except.noConfusion h
      | (injection h with h2; exact ValidationError.noConfusion h2)
      | exact validateBodyAndRebuild_ne_bodyEmpty _ _ _ _ _ h
      | (injection h with h2; subst h2;
         exact absurd (by assumption) (note_ne_bodyEmpty _))

/-- C10: for every input string, `validate_commit_message` never returns the
`BodyEmpty` error: `CommitBody::from_str` is invoked on the joined body lines
only when some collected body line is non-blank, so the joined text is
non-empty after trimming and the `BodyEmpty` branch of the constructor is
unreachable through the validator; no other step of the pipeline produces
`BodyEmpty` either. -/
theorem validate_never_bodyEmpty (rawMessage : Str) :
    validateCommitMessage rawMessage ≠ .error .bodyEmpty := by
  intro h
  rw [validateCommitMessage.eq_def] at h
  simp only [] at h
  repeat' split at h
  all_goals
    first
      | exact Except.noConfusion h
      | (injection h with h2; exact ValidationError.noConfusion h2)
      | (injection h with h2; subst h2;
         exact absurd (by assumption) (parseSubjectLine_ne_bodyEmpty _))
      | (injection h with h2; subst h2;
         exact absurd (by assumption) (validateSubjectLength_ne_bodyEmpty _ _))
      | (injection h with h2; subst h2;
         exact absurd (by assumption) (splitBodyFooter_ne_bodyEmpty _))
      | exact crossCheckAndFinish_ne_bodyEmpty _ _ _ _ _ _ h

/-! ## Claim C8: the autosquash shortcut -/

/-- C8: when the trimmed first processed line carries an autosquash marker
(`fixup! `, `squash! `, or `amend! `), the subject splits at its first space,
and validation accepts the whole message exactly when the text after that
space is non-empty after trimming, failing with `MessageSubjectInvalidFormat`
on the trimmed subject otherwise — no later check of the pipeline is
consulted. -/
theorem autosquash_shortcut (rawMessage first : Str) (rest : List Str)
    (hp : processedLines rawMessage = first :: rest)
    (ha : isAutosquashSubject (trim first) = true) :
    ∃ pre post, splitOnce " ".data (trim first) = some (pre, post) ∧
      validateCommitMessage rawMessage =
        (if trim post = [] then .error (.messageSubjectInvalidFormat (trim first))
         else .ok ()) := by
  have main : ∀ pre t : Str, trim first = pre ++ ' ' :: t → ' ' ∉ pre →
      ∃ pre2 post, splitOnce " ".data (trim first) = some (pre2, post) ∧
        validateCommitMessage rawMessage =
          (if trim post = [] then .error (.messageSubjectInvalidFormat (trim first))
           else .ok ()) := by
    intro pre t hpre hns
    have hsp : splitOnce " ".data (trim first) = some (pre, t) := by
      rw [hpre]
      exact splitOnce1_append t hns
    refine ⟨pre, t, hsp, ?_⟩
    rw [validateCommitMessage.eq_def]
    simp only [hp]
    rw [if_pos ha]
    simp only [hsp]
  have ha2 : (isPre ("fixup! ".data) (trim first) = true ∨
      isPre ("squash! ".data) (trim first) = true) ∨
      isPre ("amend! ".data) (trim first) = true := by
    simpa [isAutosquashSubject, Bool.or_eq_true] using ha
  rcases ha2 with (h1 | h2) | h3
  · obtain ⟨t, ht⟩ := isPre_iff_exists.mp h1
    exact main ("fixup!".data) t (by rw [ht]; rfl) (by decide)
  · obtain ⟨t, ht⟩ := isPre_iff_exists.mp h2
    exact main ("squash!".data) t (by rw [ht]; rfl) (by decide)
  · obtain ⟨t, ht⟩ := isPre_iff_exists.mp h3
    exact main ("amend!".data) t (by rw [ht]; rfl) (by decide)

/-- Witness for C8 at the spec's own example: `"fixup! feat: Add feature\n"`
is accepted through the shortcut. -/
theorem autosquash_shortcut_witness :
    validateCommitMessage ("fixup! feat: Add feature\n".data) = .ok () := by
  obtain ⟨pre, post, hsp, hv⟩ :=
    autosquash_shortcut ("fixup! feat: Add feature\n".data)
      ("fixup! feat: Add feature".data) [] (by decide) (by decide)
  have hsp2 : splitOnce " ".data (trim ("fixup! feat: Add feature".data)) =
      some ("fixup!".data, "feat: Add feature".data) := by decide
  rw [hsp] at hsp2
  injection hsp2 with h2
  injection h2 with h3 h4
  rw [hv, h4]
  decide

/-! ## Error classification of the constructors and the footer split -/

theorem scope_error_inv {raw : Str} {e : ValidationError}
    (h : CommitScope.fromStr raw = .error e) :
    e = .scopeEmpty ∨ e = .scopeMultiline ∨ e = .scopeHasClosingParen := by
  simp only [CommitScope.fromStr] at h
  split_ifs at h <;> (injection h with h2; subst h2; simp)

theorem note_error_inv {raw : Str} {e : ValidationError}
    (h : BreakingNote.fromStr raw = .error e) :
    e = .breakingNoteEmpty ∨ e = .breakingNoteMultiline := by
  simp only [BreakingNote.fromStr] at h
  split_ifs at h <;> (injection h with h2; subst h2; simp)

theorem body_error_inv {raw : Str} {e : ValidationError}
    (h : CommitBody.fromStr raw = .error e) :
    e = .bodyEmpty ∨ ∃ n l, e = .bodyLineTooLong n l := by
  simp only [CommitBody.fromStr] at h
  split_ifs at h with h1
  · injection h with h2
    subst h2
    simp
  · cases hf : (rsLines (trim raw)).find?
        (fun l => !l.isEmpty && decide (BODY_LINE_MAX_LEN < utf8Len l)) with
    | some l =>
      rw [hf] at h
      injection h with h2
      subst h2
      exact Or.inr ⟨_, _, rfl⟩
    | none =>
      rw [hf] at h
      exact Except.noConfusion h

theorem subjectNew_error_inv {t : CommitType} {sc : Option CommitScope}
    {su : CommitSummary} {nt : Option BreakingNote} {e : ValidationError}
    (h : CommitSubject.new t sc su nt = .error e) :
    ∃ a b s, e = .subjectTooLong a b s := by
  rw [CommitSubject.new] at h
  split_ifs at h
  injection h with h2
  subst h2
  exact ⟨_, _, _, rfl⟩

theorem splitBodyFooter_error_inv {content : List Str} {e : ValidationError}
    (h : splitBodyAndBreakingFooter content = .error e) :
    e = .messageBreakingFooterNotLast ∨ e = .breakingNoteEmpty := by
  simp only [splitBodyAndBreakingFooter] at h
  split_ifs at h <;> (injection h with h2; subst h2; simp)

theorem transposeScope_error_inv {sc : Option Str} {e : ValidationError}
    (h : transposeScope sc = .error e) :
    e = .scopeEmpty ∨ e = .scopeMultiline ∨ e = .scopeHasClosingParen := by
  cases sc with
  | none => exact Except.noConfusion h
  | some x =>
    cases hf : CommitScope.fromStr x with
    | error e2 =>
      simp only [transposeScope, hf] at h
      injection h with h2
      subst h2
      exact scope_error_inv hf
    | ok v =>
      simp only [transposeScope, hf] at h
      exact Except.noConfusion h

theorem transposeNote_error_inv {nt : Option Str} {e : ValidationError}
    (h : transposeNote nt = .error e) :
    e = .breakingNoteEmpty ∨ e = .breakingNoteMultiline := by
  cases nt with
  | none => exact Except.noConfusion h
  | some x =>
    cases hf : BreakingNote.fromStr x with
    | error e2 =>
      simp only [transposeNote, hf] at h
      injection h with h2
      subst h2
      exact note_error_inv hf
    | ok v =>
      simp only [transposeNote, hf] at h
      exact Except.noConfusion h

theorem rebuildSubject_error_inv {t : CommitType} {sc : Option Str}
    {su : CommitSummary} {nt : Option Str} {e : ValidationError}
    (h : rebuildSubject t sc su nt = .error e) :
    e = .scopeEmpty ∨ e = .scopeMultiline ∨ e = .scopeHasClosingParen ∨
    e = .breakingNoteEmpty ∨ e = .breakingNoteMultiline ∨
    ∃ a b s, e = .subjectTooLong a b s := by
  cases hs : transposeScope sc with
  | error e2 =>
    simp only [rebuildSubject, hs] at h
    injection h with h2
    subst h2
    rcases transposeScope_error_inv hs with h3 | h3 | h3
    · exact Or.inl h3
    · exact Or.inr (Or.inl h3)
    · exact Or.inr (Or.inr (Or.inl h3))
  | ok sv =>
    cases hn : transposeNote nt with
    | error e2 =>
      simp only [rebuildSubject, hs, hn] at h
      injection h with h2
      subst h2
      rcases transposeNote_error_inv hn with h3 | h3
      · exact Or.inr (Or.inr (Or.inr (Or.inl h3)))
      · exact Or.inr (Or.inr (Or.inr (Or.inr (Or.inl h3))))
    | ok nv =>
      cases hb : CommitSubject.new t sv su nv with
      | error e2 =>
        simp only [rebuildSubject, hs, hn, hb] at h
        injection h with h2
        subst h2
        exact Or.inr (Or.inr (Or.inr (Or.inr (Or.inr (subjectNew_error_inv hb)))))
      | ok u =>
        simp only [rebuildSubject, hs, hn, hb] at h
        exact Except.noConfusion h

theorem validateBodyAndRebuild_ne_cross (t : CommitType) (sc : Option Str)
    (su : CommitSummary) (bl : List Str) (nt : Option Str) :
    validateBodyAndRebuild t sc su bl nt ≠
        .error .messageBreakingFooterMissingBang ∧
    validateBodyAndRebuild t sc su bl nt ≠
        .error .messageBangWithoutBreakingFooter := by
  have key : ∀ e, validateBodyAndRebuild t sc su bl nt = .error e →
      e = .bodyEmpty ∨ (∃ n l, e = .bodyLineTooLong n l) ∨
      e = .scopeEmpty ∨ e = .scopeMultiline ∨ e = .scopeHasClosingParen ∨
      e = .breakingNoteEmpty ∨ e = .breakingNoteMultiline ∨
      ∃ a b s, e = .subjectTooLong a b s := by
    intro e h
    have push : rebuildSubject t sc su nt = .error e →
        e = .bodyEmpty ∨ (∃ n l, e = .bodyLineTooLong n l) ∨
        e = .scopeEmpty ∨ e = .scopeMultiline ∨ e = .scopeHasClosingParen ∨
        e = .breakingNoteEmpty ∨ e = .breakingNoteMultiline ∨
        ∃ a b s, e = .subjectTooLong a b s := by
      intro h4
      rcases rebuildSubject_error_inv h4 with h3 | h3 | h3 | h3 | h3 | h3
      · exact Or.inr (Or.inr (Or.inl h3))
      · exact Or.inr (Or.inr (Or.inr (Or.inl h3)))
      · exact Or.inr (Or.inr (Or.inr (Or.inr (Or.inl h3))))
      · exact Or.inr (Or.inr (Or.inr (Or.inr (Or.inr (Or.inl h3)))))
      · exact Or.inr (Or.inr (Or.inr (Or.inr (Or.inr (Or.inr (Or.inl h3))))))
      · exact Or.inr (Or.inr (Or.inr (Or.inr (Or.inr (Or.inr (Or.inr h3))))))
    rw [validateBodyAndRebuild.eq_def] at h
    split_ifs at h with hne
    · cases hb : CommitBody.fromStr (joinSep ['\n'] bl) with
      | error e2 =>
        simp only [hb] at h
        injection h with h2
        subst h2
        rcases body_error_inv hb with h3 | ⟨n, l, h3⟩
        · exact Or.inl h3
        · exact Or.inr (Or.inl ⟨n, l, h3⟩)
      | ok v =>
        simp only [hb] at h
        exact push h
    · exact push h
  constructor <;>
    (intro h
     rcases key _ h with h3 | ⟨n, l, h3⟩ | h3 | h3 | h3 | h3 | h3 | ⟨a, b, s, h3⟩ <;>
       exact ValidationError.noConfusion h3)

/-! ## The bang/footer cross-check characterized -/

theorem crossCheck_missingBang_iff (ct : CommitType) (sc : Option Str)
    (su : CommitSummary) (bg : Bool) (bl : List Str) (note : Option Str) :
    crossCheckAndFinish ct sc su bg bl note =
        .error .messageBreakingFooterMissingBang ↔
      bg = false ∧ note ≠ none := by
  constructor
  · intro h
    cases note with
    | none =>
      exfalso
      simp only [crossCheckAndFinish] at h
      cases bg with
      | true =>
        rw [if_pos (by trivial)] at h
        injection h with h2
        exact ValidationError.noConfusion h2
      | false =>
        rw [if_neg (by decide)] at h
        exact (validateBodyAndRebuild_ne_cross ct sc su bl none).1 h
    | some n =>
      cases bg with
      | false => exact ⟨rfl, by simp⟩
      | true =>
        exfalso
        simp only [crossCheckAndFinish] at h
        rw [if_pos (by trivial)] at h
        cases hf : BreakingNote.fromStr n with
        | error e2 =>
          simp only [hf] at h
          injection h with h2
          rcases note_error_inv hf with h3 | h3 <;>
            (rw [h3] at h2; exact ValidationError.noConfusion h2)
        | ok v =>
          simp only [hf] at h
          exact (validateBodyAndRebuild_ne_cross ct sc su bl (some n)).1 h
  · rintro ⟨hbg, hn⟩
    subst hbg
    cases note with
    | none => exact absurd rfl hn
    | some n =>
      simp only [crossCheckAndFinish]
      rw [if_neg (by decide)]

theorem crossCheck_bangWithout_iff (ct : CommitType) (sc : Option Str)
    (su : CommitSummary) (bg : Bool) (bl : List Str) (note : Option Str) :
    crossCheckAndFinish ct sc su bg bl note =
        .error .messageBangWithoutBreakingFooter ↔
      bg = true ∧ note = none := by
  constructor
  · intro h
    cases note with
    | some n =>
      exfalso
      simp only [crossCheckAndFinish] at h
      cases bg with
      | false =>
        rw [if_neg (by decide)] at h
        injection h with h2
        exact ValidationError.noConfusion h2
      | true =>
        rw [if_pos (by trivial)] at h
        cases hf : BreakingNote.fromStr n with
        | error e2 =>
          simp only [hf] at h
          injection h with h2
          rcases note_error_inv hf with h3 | h3 <;>
            (rw [h3] at h2; exact ValidationError.noConfusion h2)
        | ok v =>
          simp only [hf] at h
          exact (validateBodyAndRebuild_ne_cross ct sc su bl (some n)).2 h
    | none =>
      cases bg with
      | true => exact ⟨rfl, rfl⟩
      | false =>
        exfalso
        simp only [crossCheckAndFinish] at h
        rw [if_neg (by decide)] at h
        exact (validateBodyAndRebuild_ne_cross ct sc su bl none).2 h
  · rintro ⟨hbg, hn⟩
    subst hbg
    subst hn
    simp only [crossCheckAndFinish]
    rw [if_pos (by trivial)]

/-! ## Evaluating the validator past an accepted subject -/

theorem validate_eval (rawMessage first : Str) (rest : List Str)
    (ct : CommitType) (sc : Option Str) (su : CommitSummary) (bg : Bool)
    (hp : processedLines rawMessage = first :: rest)
    (hna : isAutosquashSubject (trim first) = false)
    (hps : parseSubjectLine (trim first) = .ok (ct, sc, su, bg))
    (hvl : validateSubjectLength (trim first) su.text = .ok ()) :
    validateCommitMessage rawMessage =
      match rest with
      | [] => if bg then .error .messageBangWithoutBreakingFooter else .ok ()
      | second :: content =>
        if !isBlankL second then .error .messageMissingBlankLineAfterSubject
        else if content = [] then
          if bg then .error .messageBangWithoutBreakingFooter else .ok ()
        else
          match splitBodyAndBreakingFooter content with
          | .error e => .error e
          | .ok (bodyLines, note) =>
            crossCheckAndFinish ct sc su bg bodyLines note := by
  rw [validateCommitMessage.eq_def]
  simp only [hp]
  rw [if_neg (by simp [hna])]
  simp only [hps, hvl]
  cases rest <;> rfl

/-! ## Claim C6: the bang/footer cross-check, corrected -/

/-- C6 counterexample to the claim as stated: `"feat!: Change API\nBody"` is
not autosquash, its subject parses with the bang set, and no line of the
message is a breaking footer, yet validation fails with
`MessageMissingBlankLineAfterSubject`, not with
`MessageBangWithoutBreakingFooter`: the blank-line check precedes the
cross-check. -/
theorem bang_crosscheck_counterexample :
    validateCommitMessage ("feat!: Change API\nBody".data) =
        .error .messageMissingBlankLineAfterSubject ∧
    isAutosquashSubject (trim ("feat!: Change API".data)) = false ∧
    parseSubjectLine (trim ("feat!: Change API".data)) =
        .ok (.feat, none, ⟨"Change API".data⟩, true) ∧
    breakingIdxs ["Body".data] = [] := by decide

/-- C6 (amended): for a non-autosquash message whose subject parses (bang
flag `bg`) and passes the length check,
`MessageBreakingFooterMissingBang` occurs exactly when the line after the
subject is blank and the footer split of the remaining content succeeds
with a note while `bg` is false; `MessageBangWithoutBreakingFooter` occurs
exactly when `bg` is true and either nothing follows the subject, or only
the blank separator follows, or the footer split of the content succeeds
without a note. A non-blank line right after the subject fails earlier
with `MessageMissingBlankLineAfterSubject`, even when the subject carries a
bang and no footer exists. -/
theorem bang_crosscheck_iff (rawMessage first : Str) (rest : List Str)
    (ct : CommitType) (sc : Option Str) (su : CommitSummary) (bg : Bool)
    (hp : processedLines rawMessage = first :: rest)
    (hna : isAutosquashSubject (trim first) = false)
    (hps : parseSubjectLine (trim first) = .ok (ct, sc, su, bg))
    (hvl : validateSubjectLength (trim first) su.text = .ok ()) :
    (validateCommitMessage rawMessage =
        .error .messageBreakingFooterMissingBang ↔
      bg = false ∧ ∃ second content bl n, rest = second :: content ∧
        isBlankL second = true ∧ content ≠ [] ∧
        splitBodyAndBreakingFooter content = .ok (bl, some n)) ∧
    (validateCommitMessage rawMessage =
        .error .messageBangWithoutBreakingFooter ↔
      bg = true ∧ (rest = [] ∨ ∃ second content, rest = second :: content ∧
        isBlankL second = true ∧ (content = [] ∨
          ∃ bl, splitBodyAndBreakingFooter content = .ok (bl, none)))) := by
  have hev := validate_eval rawMessage first rest ct sc su bg hp hna hps hvl
  cases rest with
  | nil =>
    have hev2 : validateCommitMessage rawMessage =
        (if bg = true then .error .messageBangWithoutBreakingFooter
         else .ok ()) := by rw [hev]
    rw [hev2]
    constructor
    · constructor
      · intro h
        exfalso
        split_ifs at h
        all_goals
          first
            | exact Except.noConfusion h
            | (injection h with h2; exact ValidationError.noConfusion h2)
      · rintro ⟨hbg, second, content, bl, n, hrest, hx⟩
        exact List.noConfusion hrest
    · constructor
      · intro h
        split_ifs at h with hbg
        all_goals
          first
            | exact ⟨hbg, Or.inl rfl⟩
            | exact Except.noConfusion h
      · rintro ⟨hbg, hor⟩
        rw [if_pos hbg]
  | cons second content =>
    by_cases hbl : isBlankL second = true
    · by_cases hc : content = []
      · subst hc
        have hev2 : validateCommitMessage rawMessage =
            (if bg = true then .error .messageBangWithoutBreakingFooter
             else .ok ()) := by
          rw [hev]
          simp only []
          rw [if_neg (by rw [hbl]; decide), if_pos trivial]
        rw [hev2]
        constructor
        · constructor
          · intro h
            exfalso
            split_ifs at h
            all_goals
              first
                | exact Except.noConfusion h
                | (injection h with h2; exact ValidationError.noConfusion h2)
          · rintro ⟨hbg, second2, content2, bl, n, hrest, hbl2, hcne, hsp⟩
            injection hrest with hs2 hc2
            exact absurd hc2.symm hcne
        · constructor
          · intro h
            split_ifs at h with hbg
            all_goals
              first
                | exact ⟨hbg, Or.inr ⟨second, [], rfl, hbl, Or.inl rfl⟩⟩
                | exact Except.noConfusion h
          · rintro ⟨hbg, hor⟩
            rw [if_pos hbg]
      · cases hsb : splitBodyAndBreakingFooter content with
        | error e =>
          have hev2 : validateCommitMessage rawMessage = .error e := by
            rw [hev]
            simp only []
            rw [if_neg (by rw [hbl]; decide), if_neg hc]
            simp only [hsb]
          rw [hev2]
          have hns := splitBodyFooter_error_inv hsb
          constructor
          · constructor
            · intro h
              exfalso
              injection h with h2
              rcases hns with h3 | h3 <;>
                (rw [h3] at h2; exact ValidationError.noConfusion h2)
            · rintro ⟨hbg, second2, content2, bl, n, hrest, hbl2, hcne, hsp⟩
              injection hrest with hs2 hc2
              subst hc2
              rw [hsp] at hsb
              exact Except.noConfusion hsb
          · constructor
            · intro h
              exfalso
              injection h with h2
              rcases hns with h3 | h3 <;>
                (rw [h3] at h2; exact ValidationError.noConfusion h2)
            · rintro ⟨hbg, hor⟩
              exfalso
              rcases hor with h4 | ⟨second2, content2, hrest, hbl2, h5⟩
              · exact List.noConfusion h4
              · injection hrest with hs2 hc2
                subst hc2
                rcases h5 with h6 | ⟨bl, hsp⟩
                · exact hc h6
                · rw [hsp] at hsb
                  exact Except.noConfusion hsb
        | ok p =>
          obtain ⟨bl0, nt0⟩ := p
          have hev2 : validateCommitMessage rawMessage =
              crossCheckAndFinish ct sc su bg bl0 nt0 := by
            rw [hev]
            simp only []
            rw [if_neg (by rw [hbl]; decide), if_neg hc]
            simp only [hsb]
          rw [hev2]
          constructor
          · rw [crossCheck_missingBang_iff]
            constructor
            · rintro ⟨hbg, hnn⟩
              cases nt0 with
              | none => exact absurd rfl hnn
              | some n =>
                exact ⟨hbg, second, content, bl0, n, rfl, hbl, hc, hsb⟩
            · rintro ⟨hbg, second2, content2, bl, n, hrest, hbl2, hcne, hsp⟩
              injection hrest with hs2 hc2
              subst hc2
              rw [hsp] at hsb
              injection hsb with h2
              injection h2 with h3 h4
              refine ⟨hbg, ?_⟩
              rw [← h4]
              simp
          · rw [crossCheck_bangWithout_iff]
            constructor
            · rintro ⟨hbg, hnone⟩
              subst hnone
              exact ⟨hbg, Or.inr ⟨second, content, rfl, hbl, Or.inr ⟨bl0, hsb⟩⟩⟩
            · rintro ⟨hbg, hor⟩
              rcases hor with h4 | ⟨second2, content2, hrest, hbl2, h5⟩
              · exact List.noConfusion h4
              · injection hrest with hs2 hc2
                subst hc2
                rcases h5 with h6 | ⟨bl, hsp⟩
                · exact absurd h6 hc
                · rw [hsp] at hsb
                  injection hsb with h2
                  injection h2 with h3 h4
                  exact ⟨hbg, h4.symm⟩
    · have hbl2 : isBlankL second = false := by
        rcases Bool.eq_false_or_eq_true (isBlankL second) with hq | hq
        · exact absurd hq hbl
        · exact hq
      have hev2 : validateCommitMessage rawMessage =
          .error .messageMissingBlankLineAfterSubject := by
        rw [hev]
        simp only []
        rw [if_pos (by simp [hbl2])]
      rw [hev2]
      constructor
      · constructor
        · intro h
          exfalso
          injection h with h2
          exact ValidationError.noConfusion h2
        · rintro ⟨hbg, second2, content2, bl, n, hrest, hbl3, hcne, hsp⟩
          injection hrest with hs2 hc2
          subst hs2
          exact absurd hbl3 hbl
      · constructor
        · intro h
          exfalso
          injection h with h2
          exact ValidationError.noConfusion h2
        · rintro ⟨hbg, hor⟩
          exfalso
          rcases hor with h4 | ⟨second2, content2, hrest, hbl3, h5⟩
          · exact List.noConfusion h4
          · injection hrest with hs2 hc2
            subst hs2
            exact absurd hbl3 hbl

/-- Witness for C6 at the spec's own example: a footer note with no bang in
the subject is rejected with `MessageBreakingFooterMissingBang`, through the
amended characterization. -/
theorem bang_crosscheck_iff_witness :
    validateCommitMessage
        ("feat: Change API\n\nBREAKING CHANGE: Old thing removed\n".data) =
      .error .messageBreakingFooterMissingBang := by
  have h := (bang_crosscheck_iff
      ("feat: Change API\n\nBREAKING CHANGE: Old thing removed\n".data)
      ("feat: Change API".data)
      [[], ("BREAKING CHANGE: Old thing removed".data)]
      .feat none ⟨"Change API".data⟩ false
      (by decide) (by decide) (by decide) (by decide)).1
  exact h.mpr ⟨rfl, [], [("BREAKING CHANGE: Old thing removed".data)],
    [], ("Old thing removed".data), rfl, by decide, by decide, by decide⟩

/-! ## Infix and line-piece machinery for the composition round trip -/

theorem utf8Len_eq_zero {l : Str} : utf8Len l = 0 ↔ l = [] := by
  constructor
  · intro h
    cases l with
    | nil => rfl
    | cons c t =>
      exfalso
      have hpos := Char.utf8Size_pos c
      simp only [utf8Len, List.map_cons, List.sum_cons] at h
      omega
  · rintro rfl
    rfl

theorem utf8Len_sublist_le {a b : Str} (h : List.Sublist a b) :
    utf8Len a ≤ utf8Len b :=
  List.Sublist.sum_le_sum (h.map Char.utf8Size) (by simp)

theorem utf8Len_infix_le {a b : Str} (h : List.IsInfix a b) :
    utf8Len a ≤ utf8Len b :=
  utf8Len_sublist_le h.sublist

theorem infix_cons_lift {a : Str} (c : Char) {b : Str}
    (h : List.IsInfix a b) : List.IsInfix a (c :: b) := by
  obtain ⟨s, t, rfl⟩ := h
  exact ⟨c :: s, t, rfl⟩

theorem prefix_cons_lift {a : Str} (c : Char) {b : Str}
    (h : a <+: b) : c :: a <+: c :: b := by
  obtain ⟨t, rfl⟩ := h
  exact ⟨t, rfl⟩

theorem ltrim_suffix (s : Str) : List.IsSuffix (ltrim s) s :=
  List.dropWhile_suffix isRustWs

theorem rtrim_prefix_self (s : Str) : rtrim s <+: s := by
  rw [rtrim]
  have h := List.reverse_prefix.mpr (ltrim_suffix s.reverse)
  rwa [List.reverse_reverse] at h

theorem trim_infix_self (s : Str) : List.IsInfix (trim s) s :=
  List.IsInfix.trans (rtrim_prefix_self (ltrim s)).isInfix (ltrim_suffix s).isInfix

theorem splitLF_head_pfx :
    ∀ {s h0 : Str}, (splitLF s).head? = some h0 → h0 <+: s := by
  intro s
  induction s with
  | nil =>
    intro h0 h
    simp only [splitLF] at h
    injection h with h2
    subst h2
    exact List.nil_prefix
  | cons c t ih =>
    intro h0 h
    simp only [splitLF] at h
    by_cases hc : c = '\n'
    · rw [if_pos hc] at h
      injection h with h2
      subst h2
      exact List.nil_prefix
    · rw [if_neg hc] at h
      cases hsp : splitLF t with
      | nil => exact absurd hsp (splitLF_ne_nil t)
      | cons u us =>
        rw [hsp] at h
        simp only [List.modifyHead, List.head?_cons] at h
        injection h with h2
        subst h2
        exact prefix_cons_lift c (ih (by rw [hsp]; rfl))

theorem mem_splitLF_no_lf :
    ∀ {s p : Str}, p ∈ splitLF s → '\n' ∉ p := by
  intro s
  induction s with
  | nil =>
    intro p hp
    simp only [splitLF, List.mem_singleton] at hp
    subst hp
    simp
  | cons c t ih =>
    intro p hp
    simp only [splitLF] at hp
    by_cases hc : c = '\n'
    · rw [if_pos hc] at hp
      rcases List.mem_cons.mp hp with hp | hp
      · subst hp; simp
      · exact ih hp
    · rw [if_neg hc] at hp
      cases hsp : splitLF t with
      | nil => exact absurd hsp (splitLF_ne_nil t)
      | cons u us =>
        rw [hsp] at hp
        simp only [List.headD_cons, List.tail_cons] at hp
        rcases List.mem_cons.mp hp with hp | hp
        · subst hp
          intro hm
          rcases List.mem_cons.mp hm with hm | hm
          · exact hc hm.symm
          · exact ih (by rw [hsp]; exact List.mem_cons_self u us) hm
        · exact ih (by rw [hsp]; exact List.mem_cons_of_mem u hp)

theorem mem_splitLF_infix_piece :
    ∀ {s p : Str}, p ∈ splitLF s → List.IsInfix p s := by
  intro s
  induction s with
  | nil =>
    intro p hp
    simp only [splitLF, List.mem_singleton] at hp
    subst hp
    exact List.nil_infix
  | cons c t ih =>
    intro p hp
    simp only [splitLF] at hp
    by_cases hc : c = '\n'
    · rw [if_pos hc] at hp
      rcases List.mem_cons.mp hp with hp | hp
      · subst hp; exact List.nil_infix
      · exact infix_cons_lift c (ih hp)
    · rw [if_neg hc] at hp
      cases hsp : splitLF t with
      | nil => exact absurd hsp (splitLF_ne_nil t)
      | cons u us =>
        rw [hsp] at hp
        simp only [List.headD_cons, List.tail_cons] at hp
        rcases List.mem_cons.mp hp with hp | hp
        · subst hp
          exact (prefix_cons_lift c (splitLF_head_pfx (by rw [hsp]; rfl))).isInfix
        · exact infix_cons_lift c (ih (by rw [hsp]; exact List.mem_cons_of_mem u hp))

theorem no_lf_prefix_head_piece :
    ∀ {t p u : Str} {us : List Str}, '\n' ∉ p → p <+: t →
      splitLF t = u :: us → p <+: u := by
  intro t
  induction t with
  | nil =>
    intro p u us hn hp hsp
    have := List.prefix_nil.mp hp
    subst this
    exact List.nil_prefix
  | cons e t' iht =>
    intro p u us hn hp hsp
    simp only [splitLF] at hsp
    by_cases he : e = '\n'
    · rw [if_pos he] at hsp
      injection hsp with h1 h2
      subst h1
      cases p with
      | nil => exact List.nil_prefix
      | cons f p'' =>
        obtain ⟨t3, ht4⟩ := hp
        injection ht4 with hf _
        have hf2 : f = '\n' := hf.trans he
        exfalso
        apply hn
        rw [← hf2]
        exact List.mem_cons_self f p''
    · rw [if_neg he] at hsp
      cases hsp2 : splitLF t' with
      | nil => exact absurd hsp2 (splitLF_ne_nil t')
      | cons u2 us2 =>
        rw [hsp2] at hsp
        simp only [List.headD_cons, List.tail_cons] at hsp
        injection hsp with h1 h2
        subst h1
        cases p with
        | nil => exact List.nil_prefix
        | cons f p'' =>
          obtain ⟨t3, ht4⟩ := hp
          injection ht4 with hf ht5
          subst hf
          exact prefix_cons_lift f
            (iht (fun hm => hn (List.mem_cons_of_mem f hm)) ⟨t3, ht5⟩ hsp2)

theorem infix_no_lf_piece :
    ∀ {s p : Str}, List.IsInfix p s → '\n' ∉ p →
      ∃ q ∈ splitLF s, List.IsInfix p q := by
  intro s
  induction s with
  | nil =>
    intro p hinf hn
    have hp := List.eq_nil_of_infix_nil hinf
    subst hp
    exact ⟨[], by simp [splitLF], List.nil_infix⟩
  | cons c t ih =>
    intro p hinf hn
    cases hp : p with
    | nil =>
      cases hsp : splitLF (c :: t) with
      | nil => exact absurd hsp (splitLF_ne_nil _)
      | cons q qs =>
        exact ⟨q, List.mem_cons_self _ _, List.nil_infix⟩
    | cons d p' =>
      subst hp
      rcases List.infix_cons_iff.mp hinf with hpre | hinf'
      · obtain ⟨t2, ht2⟩ := hpre
        injection ht2 with hd ht3
        subst hd
        have hc : ¬(d = '\n') :=
          fun he => hn (by rw [he]; exact List.mem_cons_self _ _)
        have hp' : p' <+: t := ⟨t2, ht3⟩
        have hn' : '\n' ∉ p' := fun hm => hn (List.mem_cons_of_mem d hm)
        cases hsp : splitLF t with
        | nil => exact absurd hsp (splitLF_ne_nil t)
        | cons u us =>
          have hpref : p' <+: u := no_lf_prefix_head_piece hn' hp' hsp
          refine ⟨d :: u, ?_, (prefix_cons_lift d hpref).isInfix⟩
          simp only [splitLF]
          rw [if_neg hc, hsp]
          simp [List.headD_cons, List.tail_cons]
      · obtain ⟨q, hq, hq2⟩ := ih hinf' hn
        simp only [splitLF]
        by_cases hc : c = '\n'
        · rw [if_pos hc]
          exact ⟨q, List.mem_cons_of_mem _ hq, hq2⟩
        · rw [if_neg hc]
          cases hsp : splitLF t with
          | nil => exact absurd hsp (splitLF_ne_nil t)
          | cons u us =>
            rw [hsp] at hq
            simp only [List.headD_cons, List.tail_cons]
            rcases List.mem_cons.mp hq with hq | hq
            · subst hq
              exact ⟨c :: q, List.mem_cons_self _ _,
                List.IsInfix.trans hq2 (infix_cons_lift c (List.infix_refl q))⟩
            · exact ⟨q, List.mem_cons_of_mem _ hq, hq2⟩

theorem lastPiece_some_ne_nil {p : Str} (h : p ≠ []) : lastPiece (some p) = [p] := by
  cases p with
  | nil => exact absurd rfl h
  | cons a r => rfl

theorem splitLF_last_piece :
    ∀ {s : Str}, s ≠ [] → s.getLast? ≠ some '\n' →
      ∃ ps p, splitLF s = ps ++ [p] ∧ p ≠ [] ∧ p.getLast? = s.getLast? := by
  intro s
  induction s with
  | nil => intro h _; exact absurd rfl h
  | cons c t ih =>
    intro _ hlast
    cases t with
    | nil =>
      have hc : ¬(c = '\n') := by
        intro he
        exact hlast (by rw [he]; rfl)
      refine ⟨[], [c], ?_, by simp, rfl⟩
      simp only [splitLF]
      rw [if_neg hc]
      rfl
    | cons d t' =>
      have hlast' : (d :: t').getLast? ≠ some '\n' := by
        rwa [List.getLast?_cons_cons] at hlast
      obtain ⟨ps, p, hsp, hpne, hpl⟩ := ih (by simp) hlast'
      have hstep : splitLF (c :: d :: t') =
          if c = '\n' then [] :: splitLF (d :: t')
          else (c :: (splitLF (d :: t')).headD []) :: (splitLF (d :: t')).tail := rfl
      by_cases hc : c = '\n'
      · refine ⟨[] :: ps, p, ?_, hpne, ?_⟩
        · rw [hstep, if_pos hc, hsp]
          rfl
        · rw [hpl, List.getLast?_cons_cons]
      · cases ps with
        | nil =>
          refine ⟨[], c :: p, ?_, by simp, ?_⟩
          · rw [hstep, if_neg hc, hsp]
            simp
          · obtain ⟨a, r, har⟩ := List.exists_cons_of_ne_nil hpne
            subst har
            rw [List.getLast?_cons_cons, hpl, List.getLast?_cons_cons]
        | cons q qs =>
          refine ⟨(c :: q) :: qs, p, ?_, hpne, ?_⟩
          · rw [hstep, if_neg hc, hsp]
            simp
          · rw [hpl, List.getLast?_cons_cons]

theorem rsLines_eq_map_stripCR {s : Str} (hne : s ≠ [])
    (hlast : ∀ c, s.getLast? = some c → isRustWs c = false) :
    rsLines s = (splitLF s).map stripCR := by
  have hln : s.getLast? ≠ some '\n' := by
    intro h
    exact Bool.noConfusion (hlast '\n' h)
  obtain ⟨ps, p, hsp, hpne, hpl⟩ := splitLF_last_piece hne hln
  have hpcr : p.getLast? ≠ some '\r' := by
    intro h
    rw [hpl] at h
    exact Bool.noConfusion (hlast '\r' h)
  rw [rsLines, hsp, List.dropLast_concat, List.getLast?_concat]
  rw [List.map_append, lastPiece_some_ne_nil hpne]
  simp [stripCR_eq_self hpcr]

theorem stripCR_sublist (l : Str) : List.Sublist (stripCR l) l := by
  rw [stripCR]
  split
  · exact List.dropLast_sublist _
  · exact List.Sublist.refl l

theorem mem_rsLines_bound {s l : Str} (h : l ∈ rsLines s) :
    ∃ p ∈ splitLF s, utf8Len l ≤ utf8Len p := by
  rw [rsLines] at h
  rcases List.mem_append.mp h with h1 | h1
  · obtain ⟨p, hp, hl⟩ := List.mem_map.mp h1
    exact ⟨p, List.dropLast_subset _ hp, by rw [← hl]; exact utf8Len_stripCR_le p⟩
  · cases hg : (splitLF s).getLast? with
    | none =>
      rw [hg] at h1
      simp [lastPiece] at h1
    | some p =>
      rw [hg] at h1
      cases p with
      | nil => simp [lastPiece] at h1
      | cons a r =>
        simp only [lastPiece, List.mem_singleton] at h1
        subst h1
        refine ⟨a :: r, ?_, Nat.le_refl _⟩
        obtain ⟨ys, hys⟩ := List.getLast?_eq_some_iff.mp hg
        rw [hys]
        exact List.mem_append_right ys (by simp)

theorem mem_rsLines_no_lf {s l : Str} (h : l ∈ rsLines s) : '\n' ∉ l := by
  rw [rsLines] at h
  rcases List.mem_append.mp h with h1 | h1
  · obtain ⟨p, hp, hl⟩ := List.mem_map.mp h1
    intro hm
    rw [← hl] at hm
    exact mem_splitLF_no_lf (List.dropLast_subset _ hp)
      ((stripCR_sublist p).subset hm)
  · cases hg : (splitLF s).getLast? with
    | none =>
      rw [hg] at h1
      simp [lastPiece] at h1
    | some p =>
      rw [hg] at h1
      cases p with
      | nil => simp [lastPiece] at h1
      | cons a r =>
        simp only [lastPiece, List.mem_singleton] at h1
        subst h1
        obtain ⟨ys, hys⟩ := List.getLast?_eq_some_iff.mp hg
        exact mem_splitLF_no_lf (by rw [hys]; exact List.mem_append_right ys (by simp))

theorem splitLF_joinSep {bl : List Str} (hne : bl ≠ [])
    (hlf : ∀ l ∈ bl, '\n' ∉ l) :
    splitLF (joinSep ['\n'] bl) = bl := by
  induction bl with
  | nil => exact absurd rfl hne
  | cons x xs ih =>
    cases xs with
    | nil =>
      simp only [joinSep]
      exact splitLF_no_lf (hlf x (by simp))
    | cons y ys =>
      rw [joinSep_cons _ _ (by simp)]
      have hre : x ++ ['\n'] ++ joinSep ['\n'] (y :: ys) =
          x ++ '\n' :: joinSep ['\n'] (y :: ys) := by
        rw [List.append_assoc]
        rfl
      rw [hre, splitLF_append, splitLF_no_lf (hlf x (by simp)),
        ih (by simp) (fun l hl => hlf l (List.mem_cons_of_mem x hl))]
      rfl

theorem dropWhile_head_not {α : Type} {p : α → Bool} :
    ∀ {l : List α} {a : α} {r : List α}, l.dropWhile p = a :: r → p a = false := by
  intro l
  induction l with
  | nil =>
    intro a r h
    exact List.noConfusion h
  | cons c t ih =>
    intro a r h
    rw [List.dropWhile_cons] at h
    by_cases hc : p c = true
    · rw [if_pos hc] at h
      exact ih h
    · rw [if_neg hc] at h
      injection h with h1 _
      subst h1
      simpa using hc

theorem dropTrailingBlanks_sublist (l : List Str) :
    List.Sublist (dropTrailingBlanks l) l := by
  rw [dropTrailingBlanks]
  have h : List.Sublist (l.reverse.dropWhile isBlankL) l.reverse :=
    List.dropWhile_sublist isBlankL
  have h2 := h.reverse
  rwa [List.reverse_reverse] at h2

theorem dropTrailingBlanks_nonblank {l : List Str}
    (hne : dropTrailingBlanks l ≠ []) :
    hasNonEmptyBody (dropTrailingBlanks l) = true := by
  rw [dropTrailingBlanks] at hne ⊢
  cases hd : l.reverse.dropWhile isBlankL with
  | nil =>
    rw [hd] at hne
    simp at hne
  | cons a r =>
    have ha : isBlankL a = false := dropWhile_head_not hd
    rw [hasNonEmptyBody, List.any_eq_true]
    exact ⟨a, by simp, by simp [ha]⟩

theorem isBlankL_false_of_mem {c : Char} {l : Str} (hm : c ∈ l)
    (hc : isRustWs c = false) : isBlankL l = false := by
  cases hb : isBlankL l
  · rfl
  · rw [isBlankL_iff.mp hb c hm] at hc
    exact Bool.noConfusion hc

theorem rtrim_eq_self {l : Str} {c : Char} (h : l.getLast? = some c)
    (hc : isRustWs c = false) : rtrim l = l := by
  obtain ⟨ys, rfl⟩ := List.getLast?_eq_some_iff.mp h
  exact rtrim_concat_neg hc ys

theorem ltrim_eq_self {l : Str} {c : Char} (h : l.head? = some c)
    (hc : isRustWs c = false) : ltrim l = l := by
  obtain ⟨ys, rfl⟩ := List.head?_eq_some_iff.mp h
  exact ltrim_cons_neg hc _

theorem body_join_ok {bl : List Str} (hne : bl ≠ [])
    (hlf : ∀ l ∈ bl, '\n' ∉ l)
    (hnb : hasNonEmptyBody bl = true)
    (hbound : ∀ l ∈ bl, l = [] ∨ utf8Len l ≤ BODY_LINE_MAX_LEN) :
    CommitBody.fromStr (joinSep ['\n'] bl) = .ok ⟨trim (joinSep ['\n'] bl)⟩ := by
  have htr := trim_join_ne_nil_of_hasNonEmptyBody hnb
  simp only [CommitBody.fromStr]
  rw [if_neg htr]
  have hfind : (rsLines (trim (joinSep ['\n'] bl))).find?
      (fun l => !l.isEmpty && decide (BODY_LINE_MAX_LEN < utf8Len l)) = none := by
    rw [List.find?_eq_none]
    intro l hl
    obtain ⟨p, hp, hlp⟩ := mem_rsLines_bound hl
    have hinf : List.IsInfix p (joinSep ['\n'] bl) :=
      List.IsInfix.trans (mem_splitLF_infix_piece hp) (trim_infix_self _)
    have hnlf : '\n' ∉ p := mem_splitLF_no_lf hp
    obtain ⟨q, hq, hpq⟩ := infix_no_lf_piece hinf hnlf
    rw [splitLF_joinSep hne hlf] at hq
    have hle : utf8Len l ≤ utf8Len q := le_trans hlp (utf8Len_infix_le hpq)
    simp only [Bool.and_eq_true, Bool.not_eq_true', List.isEmpty_iff,
      decide_eq_true_eq, not_and, not_lt]
    intro hlne
    have hlne2 : l ≠ [] := by simpa using hlne
    rcases hbound q hq with hq0 | hq72
    · rw [hq0] at hle
      exact absurd (utf8Len_eq_zero.mp (Nat.le_zero.mp hle)) hlne2
    · exact le_trans hle hq72
  rw [hfind]

theorem footerNote_canonical {note : Str} (htr : trim note = note)
    (hne : note ≠ []) : footerNote (bcKey ++ ' ' :: note) = note := by
  obtain ⟨ys, c, hys⟩ := (List.eq_nil_or_concat note).resolve_left hne
  rw [List.concat_eq_append] at hys
  have hcws : isRustWs c = false := trim_getLast_not_ws (htr.trans hys)
  have hrt : rtrim (bcKey ++ ' ' :: note) = bcKey ++ ' ' :: note := by
    refine rtrim_eq_self (c := c) ?_ hcws
    rw [hys, show bcKey ++ ' ' :: (ys ++ [c]) = (bcKey ++ ' ' :: ys) ++ [c] from by simp]
    exact List.getLast?_concat _
  have hlt : ltrim (bcKey ++ ' ' :: note) = bcKey ++ ' ' :: note := by
    rw [show bcKey ++ ' ' :: note = 'B' :: ("REAKING CHANGE:".data ++ ' ' :: note) from rfl]
    exact ltrim_cons_neg (by decide) _
  rw [footerNote, hrt, hlt, dropPre,
    if_pos (isPre_append_self bcKey (' ' :: note)), List.drop_left]
  simp only [Option.getD_some]
  rw [show stripOneSpace (' ' :: note) = note from rfl]
  exact htr

/-! ## The canonical subject parses back into its components -/

theorem asStr_facts (ct : CommitType) :
    ct.asStr ≠ [] ∧ (∀ c ∈ ct.asStr, isRustWs c = false) ∧
    ':' ∉ ct.asStr ∧ '(' ∉ ct.asStr ∧ ')' ∉ ct.asStr ∧ '!' ∉ ct.asStr ∧
    '\n' ∉ ct.asStr ∧ ct.asStr.head? ≠ some '#' := by
  cases ct <;> exact ⟨by decide, by decide, by decide, by decide, by decide,
    by decide, by decide, by decide⟩

theorem commitType_fromStr_asStr (t : CommitType) :
    CommitType.fromStr t.asStr = .ok t := by
  cases t <;> decide

theorem noOccur_singleton (c₁ c₂ x : Char) : noOccur [c₁, c₂] [x] := by
  intro i
  cases i with
  | zero => simp [isPre]
  | succ j =>
    rw [List.drop_succ_cons, List.drop_nil]
    rfl

theorem head?_append_left {a : Str} {c : Char} (h : a.head? = some c) (b : Str) :
    (a ++ b).head? = some c := by
  cases a with
  | nil => exact absurd h (by simp)
  | cons d t =>
    injection h with h1
    subst h1
    rfl

theorem mem_of_head?_eq {a : Str} {c : Char} (h : a.head? = some c) : c ∈ a := by
  obtain ⟨t, rfl⟩ := List.head?_eq_some_iff.mp h
  exact List.mem_cons_self c t

theorem mem_of_getLast?_eq {a : Str} {c : Char} (h : a.getLast? = some c) : c ∈ a := by
  obtain ⟨ys, rfl⟩ := List.getLast?_eq_some_iff.mp h
  exact List.mem_append_right ys (by simp)

theorem getLast?_append_right {α : Type} {a b : List α} (h : b ≠ []) :
    (a ++ b).getLast? = b.getLast? := by
  rw [List.getLast?_append]
  cases hg : b.getLast? with
  | none =>
    rw [List.getLast?_eq_none_iff] at hg
    exact absurd hg h
  | some c => rfl

theorem trim_eq_self_of_ends {s : Str} {c d : Char}
    (hh : s.head? = some c) (hc : isRustWs c = false)
    (hl : s.getLast? = some d) (hd : isRustWs d = false) : trim s = s :=
  trim_eq_self
    (fun e he => by rw [hh] at he; injection he with he2; rwa [← he2])
    (fun e he => by rw [hl] at he; injection he with he2; rwa [← he2])

theorem endsWithC_false_of_not_mem {c : Char} {s : Str} (h : c ∉ s) :
    endsWithC c s = false := by
  rw [endsWithC]
  cases hg : s.getLast? with
  | none => rfl
  | some d =>
    have hd : d ∈ s := mem_of_getLast?_eq hg
    exact beq_eq_false_iff_ne.mpr (fun he => h ((Option.some.inj he) ▸ hd))

theorem endsWithC_concat_self (c : Char) (a : Str) :
    endsWithC c (a ++ [c]) = true := by
  rw [endsWithC, List.getLast?_concat]
  simp

theorem subjectNew_ok_inv {ct : CommitType} {sc : Option CommitScope}
    {su : CommitSummary} {nt : Option BreakingNote} {subj : CommitSubject}
    (h : CommitSubject.new ct sc su nt = .ok subj) :
    subj.text = subjectText ct sc su nt.isSome ∧
      utf8Len (subjectText ct sc su nt.isSome) ≤ SUBJECT_MAX_LEN := by
  rw [CommitSubject.new] at h
  split_ifs at h with h1
  injection h with h2
  constructor
  · rw [← h2]
  · omega

theorem parseSubject_canonical (ct : CommitType) (sc : Option CommitScope)
    (su : CommitSummary) (bang : Bool)
    (hsu : CommitSummary.fromStr su.text = .ok su)
    (hsc : ∀ s, sc = some s → CommitScope.fromStr s.text = .ok s)
    (hscp : ∀ s, sc = some s → containsStr (": ".data) s.text = false) :
    parseSubjectLine (subjectText ct sc su bang) =
      .ok (ct, sc.map (fun s => s.text), su, bang) := by
  obtain ⟨hasne, haschars, hascolon, haslp, hasrp, hasbang, haslf, hashash⟩ :=
    asStr_facts ct
  obtain ⟨c1, r1, hc1⟩ := List.exists_cons_of_ne_nil hasne
  have hhead1 : ct.asStr.head? = some c1 := by rw [hc1]; rfl
  have hc1ws : isRustWs c1 = false := haschars c1 (mem_of_head?_eq hhead1)
  obtain ⟨ys1, d1, hys1⟩ := (List.eq_nil_or_concat ct.asStr).resolve_left hasne
  rw [List.concat_eq_append] at hys1
  have hlast1 : ct.asStr.getLast? = some d1 := by rw [hys1]; exact List.getLast?_concat _
  have hd1ws : isRustWs d1 = false := haschars d1 (mem_of_getLast?_eq hlast1)
  have htras : trim ct.asStr = ct.asStr :=
    trim_eq_self_of_ends hhead1 hc1ws hlast1 hd1ws
  cases sc with
  | none =>
    cases bang with
    | false =>
      have hshape : subjectText ct none su false = ct.asStr ++ ':' :: ' ' :: su.text := by
        simp [subjectText]
      have hsp : splitOnce (": ".data) (subjectText ct none su false) =
          some (ct.asStr, su.text) := by
        rw [hshape]
        exact splitOnce2_append (by decide) _ (noOccur_of_head_not_mem hascolon)
      rw [parseSubjectLine.eq_def]
      simp only [hsp]
      rw [htras, if_neg hasne, endsWithC_false_of_not_mem hasbang]
      simp only [Bool.false_eq_true, false_and, if_false]
      rw [endsWithC_false_of_not_mem hasrp]
      simp only [Bool.false_eq_true, if_false]
      simp only [commitType_fromStr_asStr, hsu]
      rfl
    | true =>
      have hshape : subjectText ct none su true =
          (ct.asStr ++ ['!']) ++ ':' :: ' ' :: su.text := by
        simp [subjectText]
      have hno : noOccur ([':', ' ']) (ct.asStr ++ ['!']) :=
        noOccur2_append (noOccur_of_head_not_mem hascolon) (noOccur_singleton _ _ _)
          (by
            rintro ⟨h1, h2⟩
            exact hascolon (mem_of_getLast?_eq h1))
      have hsp : splitOnce (": ".data) (subjectText ct none su true) =
          some (ct.asStr ++ ['!'], su.text) := by
        rw [hshape]
        exact splitOnce2_append (by decide) _ hno
      have htrP : trim (ct.asStr ++ ['!']) = ct.asStr ++ ['!'] :=
        trim_eq_self_of_ends (head?_append_left hhead1 _) hc1ws
          (List.getLast?_concat _) (by decide)
      rw [parseSubjectLine.eq_def]
      simp only [hsp]
      rw [htrP, if_neg (by simp), endsWithC_concat_self]
      simp only [eq_self_iff_true, true_and, if_true, List.dropLast_concat]
      rw [rtrim_eq_self hlast1 hd1ws, if_neg hasne,
        endsWithC_false_of_not_mem hasrp]
      simp only [Bool.false_eq_true, if_false]
      simp only [commitType_fromStr_asStr, hsu]
      rfl
  | some s =>
    have hs := hsc s rfl
    obtain ⟨htext, htne, hsnl, hsnr, hspar⟩ := scope_fromStr_ok_inv hs
    have htrs : trim s.text = s.text := htext.symm
    have hsne : s.text ≠ [] := by rw [htext]; exact htne
    have hnos : noOccur ([':', ' ']) s.text := by
      have hcont := hscp s rfl
      rw [containsStr] at hcont
      have hnone : splitOnce (": ".data) s.text = none := by
        cases hso : splitOnce (": ".data) s.text with
        | none => rfl
        | some p =>
          rw [hso] at hcont
          exact Bool.noConfusion hcont
      exact splitOnce_eq_none_iff.mp hnone
    have hnoQ : noOccur ([':', ' ']) (ct.asStr ++ '(' :: (s.text ++ [')'])) := by
      refine noOccur2_append (noOccur_of_head_not_mem hascolon) ?_ ?_
      · have hin : noOccur ([':', ' ']) (s.text ++ [')']) := by
          refine noOccur2_append hnos (noOccur_singleton _ _ _) ?_
          rintro ⟨h1, h2⟩
          injection h2 with h3
          exact absurd h3 (by decide)
        have : ('(' : Char) :: (s.text ++ [')']) = ['('] ++ (s.text ++ [')']) := rfl
        rw [this]
        refine noOccur2_append (noOccur_singleton _ _ _) hin ?_
        rintro ⟨h1, h2⟩
        injection h1 with h3
        exact absurd h3 (by decide)
      · rintro ⟨h1, h2⟩
        injection h2 with h3
        exact absurd h3 (by decide)
    have hQlast : (ct.asStr ++ '(' :: (s.text ++ [')'])).getLast? = some ')' := by
      rw [getLast?_append_right (by simp)]
      rw [show ('(' : Char) :: (s.text ++ [')']) = ('(' :: s.text) ++ [')'] from by simp,
        List.getLast?_concat]
    have htrQ : trim (ct.asStr ++ '(' :: (s.text ++ [')'])) =
        ct.asStr ++ '(' :: (s.text ++ [')']) :=
      trim_eq_self_of_ends (head?_append_left hhead1 _) hc1ws hQlast (by decide)
    have hQne : ct.asStr ++ '(' :: (s.text ++ [')']) ≠ [] := by simp
    have hparQ : endsWithC ')' (ct.asStr ++ '(' :: (s.text ++ [')'])) = true := by
      rw [endsWithC, hQlast]
      simp
    have hbangQ : endsWithC '!' (ct.asStr ++ '(' :: (s.text ++ [')'])) = false := by
      rw [endsWithC, hQlast]
      decide
    have hsplit1 : splitOnce ("(".data) (ct.asStr ++ '(' :: (s.text ++ [')'])) =
        some (ct.asStr, s.text ++ [')']) :=
      splitOnce1_append _ haslp
    cases bang with
    | false =>
      have hshape : subjectText ct (some s) su false =
          (ct.asStr ++ '(' :: (s.text ++ [')'])) ++ ':' :: ' ' :: su.text := by
        simp [subjectText, List.append_assoc]
      have hsp : splitOnce (": ".data) (subjectText ct (some s) su false) =
          some (ct.asStr ++ '(' :: (s.text ++ [')']), su.text) := by
        rw [hshape]
        exact splitOnce2_append (by decide) _ hnoQ
      rw [parseSubjectLine.eq_def]
      simp only [hsp]
      rw [htrQ, if_neg hQne, hbangQ]
      simp only [Bool.false_eq_true, false_and, if_false]
      rw [hparQ]
      simp only [if_true]
      simp only [hsplit1]
      rw [trim_asStr, List.dropLast_concat, if_neg hasne]
      simp only [commitType_fromStr_asStr, hsu]
      rfl
    | true =>
      have hshape : subjectText ct (some s) su true =
          ((ct.asStr ++ '(' :: (s.text ++ [')'])) ++ ['!']) ++ ':' :: ' ' :: su.text := by
        simp [subjectText, List.append_assoc]
      have hnoP : noOccur ([':', ' '])
          ((ct.asStr ++ '(' :: (s.text ++ [')'])) ++ ['!']) := by
        refine noOccur2_append hnoQ (noOccur_singleton _ _ _) ?_
        rintro ⟨h1, h2⟩
        rw [hQlast] at h1
        injection h1 with h3
        exact absurd h3 (by decide)
      have hsp : splitOnce (": ".data) (subjectText ct (some s) su true) =
          some ((ct.asStr ++ '(' :: (s.text ++ [')'])) ++ ['!'], su.text) := by
        rw [hshape]
        exact splitOnce2_append (by decide) _ hnoP
      have htrP : trim ((ct.asStr ++ '(' :: (s.text ++ [')'])) ++ ['!']) =
          (ct.asStr ++ '(' :: (s.text ++ [')'])) ++ ['!'] :=
        trim_eq_self_of_ends
          (head?_append_left (head?_append_left hhead1 _) _) hc1ws
          (List.getLast?_concat _) (by decide)
      rw [parseSubjectLine.eq_def]
      simp only [hsp]
      rw [htrP, if_neg (by simp), endsWithC_concat_self]
      simp only [eq_self_iff_true, true_and, if_true, List.dropLast_concat]
      rw [rtrim_eq_self hQlast (by decide), if_neg hQne, hparQ]
      simp only [if_true]
      simp only [hsplit1]
      rw [trim_asStr, List.dropLast_concat, if_neg hasne]
      simp only [commitType_fromStr_asStr, hsu]
      rfl

theorem subjectText_decomp (ct : CommitType) (sc : Option CommitScope)
    (su : CommitSummary) (bang : Bool) :
    ∃ A, subjectText ct sc su bang = A ++ ':' :: ' ' :: su.text ∧
      A.head? = ct.asStr.head? ∧ A ≠ [] ∧
      ∀ c ∈ A, c ∈ ct.asStr ∨ c = '(' ∨ c = ')' ∨ c = '!' ∨
        ∃ s, sc = some s ∧ c ∈ s.text := by
  have hasne := (asStr_facts ct).1
  obtain ⟨c1, r1, hc1⟩ := List.exists_cons_of_ne_nil hasne
  have hhead1 : ct.asStr.head? = some c1 := by rw [hc1]; rfl
  cases sc with
  | none =>
    cases bang with
    | false =>
      refine ⟨ct.asStr, by simp [subjectText], rfl, hasne, ?_⟩
      intro c hc
      exact Or.inl hc
    | true =>
      refine ⟨ct.asStr ++ ['!'], by simp [subjectText], ?_, by simp, ?_⟩
      · rw [head?_append_left hhead1, hhead1]
      · intro c hc
        rcases List.mem_append.mp hc with hc | hc
        · exact Or.inl hc
        · simp only [List.mem_singleton] at hc
          subst hc
          exact Or.inr (Or.inr (Or.inr (Or.inl rfl)))
  | some s =>
    cases bang with
    | false =>
      refine ⟨ct.asStr ++ '(' :: (s.text ++ [')']),
        by simp [subjectText, List.append_assoc], ?_, by simp, ?_⟩
      · rw [head?_append_left hhead1, hhead1]
      · intro c hc
        rcases List.mem_append.mp hc with hc | hc
        · exact Or.inl hc
        · rcases List.mem_cons.mp hc with hc | hc
          · exact Or.inr (Or.inl hc)
          · rcases List.mem_append.mp hc with hc | hc
            · exact Or.inr (Or.inr (Or.inr (Or.inr ⟨s, rfl, hc⟩)))
            · simp only [List.mem_singleton] at hc
              subst hc
              exact Or.inr (Or.inr (Or.inl rfl))
    | true =>
      refine ⟨(ct.asStr ++ '(' :: (s.text ++ [')'])) ++ ['!'],
        by simp [subjectText, List.append_assoc], ?_, by simp, ?_⟩
      · rw [head?_append_left (head?_append_left hhead1 _), hhead1]
      · intro c hc
        rcases List.mem_append.mp hc with hc | hc
        · rcases List.mem_append.mp hc with hc | hc
          · exact Or.inl hc
          · rcases List.mem_cons.mp hc with hc | hc
            · exact Or.inr (Or.inl hc)
            · rcases List.mem_append.mp hc with hc | hc
              · exact Or.inr (Or.inr (Or.inr (Or.inr ⟨s, rfl, hc⟩)))
              · simp only [List.mem_singleton] at hc
                subst hc
                exact Or.inr (Or.inr (Or.inl rfl))
        · simp only [List.mem_singleton] at hc
          subst hc
          exact Or.inr (Or.inr (Or.inr (Or.inl rfl)))

theorem subject_line_facts (ct : CommitType) (sc : Option CommitScope)
    (su : CommitSummary) (bang : Bool)
    (hsu : CommitSummary.fromStr su.text = .ok su)
    (hsc : ∀ s, sc = some s → CommitScope.fromStr s.text = .ok s) :
    trim (subjectText ct sc su bang) = subjectText ct sc su bang ∧
    '\n' ∉ subjectText ct sc su bang ∧
    (subjectText ct sc su bang).head? ≠ some '#' ∧
    isBlankL (subjectText ct sc su bang) = false ∧
    (subjectText ct sc su bang).getLast? ≠ some '\r' ∧
    subjectText ct sc su bang ≠ [] := by
  obtain ⟨A, hA, hAh, hAne, hAmem⟩ := subjectText_decomp ct sc su bang
  obtain ⟨hsune, hsutr, hsunl, hsunr, hsujoin⟩ := summary_text_props hsu
  obtain ⟨hasne, haschars, _, _, _, _, haslf, hashash⟩ := asStr_facts ct
  obtain ⟨c1, r1, hc1⟩ := List.exists_cons_of_ne_nil hasne
  have hhead1 : ct.asStr.head? = some c1 := by rw [hc1]; rfl
  have hc1ws : isRustWs c1 = false := haschars c1 (mem_of_head?_eq hhead1)
  have hsthead : (subjectText ct sc su bang).head? = some c1 := by
    rw [hA]
    exact head?_append_left (hAh.trans hhead1) _
  obtain ⟨ys2, d2, hys2⟩ := (List.eq_nil_or_concat su.text).resolve_left hsune
  rw [List.concat_eq_append] at hys2
  have hd2ws : isRustWs d2 = false := trim_getLast_not_ws (hsutr.trans hys2)
  have hstlast : (subjectText ct sc su bang).getLast? = some d2 := by
    rw [hA, getLast?_append_right (by simp),
      show (':' :: ' ' :: su.text) = [':', ' '] ++ su.text from rfl,
      getLast?_append_right hsune, hys2]
    exact List.getLast?_concat _
  refine ⟨trim_eq_self_of_ends hsthead hc1ws hstlast hd2ws, ?_, ?_, ?_, ?_, ?_⟩
  · intro hm
    rw [hA] at hm
    rcases List.mem_append.mp hm with hm | hm
    · rcases hAmem '\n' hm with h | h | h | h | ⟨s, hseq, hcs⟩
      · exact haslf h
      · exact absurd h (by decide)
      · exact absurd h (by decide)
      · exact absurd h (by decide)
      · obtain ⟨htext, _, hsnl, _, _⟩ := scope_fromStr_ok_inv (hsc s hseq)
        rw [htext] at hcs
        exact hsnl hcs
    · rcases List.mem_cons.mp hm with h | h
      · exact absurd h (by decide)
      · rcases List.mem_cons.mp h with h | h
        · exact absurd h (by decide)
        · exact hsunl h
  · rw [hsthead]
    intro hcon
    injection hcon with h2
    exact hashash (by rw [hhead1, h2])
  · exact isBlankL_false_of_mem (mem_of_head?_eq hsthead) hc1ws
  · rw [hstlast]
    intro hcon
    injection hcon with h2
    rw [h2] at hd2ws
    exact Bool.noConfusion hd2ws
  · intro h
    rw [h] at hsthead
    exact Option.noConfusion hsthead

theorem isAutosquash_subjectText (ct : CommitType) (sc : Option CommitScope)
    (su : CommitSummary) (bang : Bool) :
    isAutosquashSubject (subjectText ct sc su bang) = false := by
  have h1 : ("fixup! ".data) = ['f', 'i', 'x', 'u', 'p', '!', ' '] := rfl
  have h2 : ("squash! ".data) = ['s', 'q', 'u', 'a', 's', 'h', '!', ' '] := rfl
  have h3 : ("amend! ".data) = ['a', 'm', 'e', 'n', 'd', '!', ' '] := rfl
  have e1 : ("fix".data) = ['f', 'i', 'x'] := rfl
  have e2 : ("feat".data) = ['f', 'e', 'a', 't'] := rfl
  have e3 : ("docs".data) = ['d', 'o', 'c', 's'] := rfl
  have e4 : ("style".data) = ['s', 't', 'y', 'l', 'e'] := rfl
  have e5 : ("refactor".data) = ['r', 'e', 'f', 'a', 'c', 't', 'o', 'r'] := rfl
  have e6 : ("perf".data) = ['p', 'e', 'r', 'f'] := rfl
  have e7 : ("test".data) = ['t', 'e', 's', 't'] := rfl
  have e8 : ("build".data) = ['b', 'u', 'i', 'l', 'd'] := rfl
  have e9 : ("chore".data) = ['c', 'h', 'o', 'r', 'e'] := rfl
  have e10 : ("ci".data) = ['c', 'i'] := rfl
  have e11 : ("revert".data) = ['r', 'e', 'v', 'e', 'r', 't'] := rfl
  rw [isAutosquashSubject, h1, h2, h3]
  cases ct <;> cases sc <;> cases bang <;>
    simp [subjectText, CommitType.asStr, e1, e2, e3, e4, e5, e6, e7, e8, e9,
      e10, e11, isPre]

theorem footer_facts {n : Str} (hne : n ≠ []) (hnl : '\n' ∉ n) :
    '\n' ∉ (bcKey ++ ' ' :: n) ∧ (bcKey ++ ' ' :: n).head? = some 'B' ∧
    isBlankL (bcKey ++ ' ' :: n) = false ∧ bcKey ++ ' ' :: n ≠ [] ∧
    isPre bcKey (ltrim (bcKey ++ ' ' :: n)) = true := by
  have hhead : (bcKey ++ ' ' :: n).head? = some 'B' := rfl
  refine ⟨?_, hhead, ?_, by simp [bcKey], ?_⟩
  · intro hm
    rcases List.mem_append.mp hm with hm | hm
    · exact absurd hm (by decide)
    · rcases List.mem_cons.mp hm with hm | hm
      · exact absurd hm (by decide)
      · exact hnl hm
  · exact isBlankL_false_of_mem (mem_of_head?_eq hhead) (by decide)
  · rw [ltrim_eq_self hhead (by decide)]
    exact isPre_append_self bcKey (' ' :: n)

theorem splitBodyFooter_none {content : List Str}
    (h : ∀ l ∈ content, isPre bcKey (ltrim l) = false) :
    splitBodyAndBreakingFooter content = .ok (content, none) := by
  simp only [splitBodyAndBreakingFooter]
  rw [if_pos (breakingIdxs_nil_iff.mpr h)]

theorem splitBodyFooter_canonical (fb : List Str) {note : Str}
    (hfb : ∀ l ∈ fb, isPre bcKey (ltrim l) = false)
    (hnote : trim note = note) (hnne : note ≠ []) :
    splitBodyAndBreakingFooter (fb ++ [[], bcKey ++ ' ' :: note]) =
      .ok (fb, some note) := by
  have hlen : (fb ++ [[], bcKey ++ ' ' :: note]).length = fb.length + 2 := by
    simp
  have hlast : (fb ++ [[], bcKey ++ ' ' :: note]).getLast? =
      some (bcKey ++ ' ' :: note) := by
    rw [List.getLast?_append]
    rfl
  have hgetlast :
      (fb ++ [[], bcKey ++ ' ' :: note]).getD
        ((fb ++ [[], bcKey ++ ' ' :: note]).length - 1) [] =
      bcKey ++ ' ' :: note := by
    rw [hlen]
    have : fb.length + 2 - 1 = fb.length + 1 := by omega
    rw [this, List.getD_eq_getElem?_getD, List.getElem?_append_right (by omega)]
    simp
  have hidx : breakingIdxs (fb ++ [[], bcKey ++ ' ' :: note]) =
      [(fb ++ [[], bcKey ++ ' ' :: note]).length - 1] := by
    refine breakingIdxs_single (by simp) ?_ ?_
    · rw [hgetlast]
      rw [ltrim_eq_self (show (bcKey ++ ' ' :: note).head? = some 'B' from rfl)
        (by decide)]
      exact isPre_append_self bcKey (' ' :: note)
    · intro i hi
      rw [hlen] at hi
      by_cases hif : i < fb.length
      · rw [List.getD_eq_getElem?_getD, List.getElem?_append_left hif]
        have hmem : fb.getD i [] ∈ fb := by
          rw [List.getD_eq_getElem?_getD, List.getElem?_eq_getElem hif]
          exact List.getElem_mem hif
        rw [show (fb[i]? : Option Str).getD [] = fb.getD i [] from by
          rw [List.getD_eq_getElem?_getD]]
        exact hfb _ hmem
      · have hieq : i = fb.length := by omega
        subst hieq
        rw [List.getD_eq_getElem?_getD, List.getElem?_append_right (by omega)]
        simp only [Nat.sub_self, List.getElem?_cons_zero, Option.getD_some]
        rfl
  simp only [splitBodyAndBreakingFooter]
  rw [hidx, if_neg (by simp)]
  rw [if_neg (by
    rw [hlen]
    push_neg
    constructor
    · simp
    · simp [hlen])]
  rw [hlast]
  simp only [Option.getD_some]
  rw [footerNote_canonical hnote hnne, if_neg hnne]
  rw [if_neg (by rw [hlen]; omega)]
  have hbefore : (fb ++ [[], bcKey ++ ' ' :: note]).getD
      ((fb ++ [[], bcKey ++ ' ' :: note]).length - 2) [] = [] := by
    rw [hlen]
    have : fb.length + 2 - 2 = fb.length := by omega
    rw [this, List.getD_eq_getElem?_getD, List.getElem?_append_right (by omega)]
    simp
  rw [hbefore]
  rw [show (!isBlankL []) = false from rfl]
  simp only [Bool.false_eq_true, if_false]
  rw [hlen]
  have : fb.length + 2 - 2 = fb.length := by omega
  rw [this, List.take_left]

theorem splitBodyFooter_footer_only {note : Str}
    (hnote : trim note = note) (hnne : note ≠ []) :
    splitBodyAndBreakingFooter [bcKey ++ ' ' :: note] = .ok ([], some note) := by
  have hidx : breakingIdxs [bcKey ++ ' ' :: note] = [0] := by
    have h := @breakingIdxs_single [bcKey ++ ' ' :: note] (by simp)
      (by
        simp only [List.length_cons, List.length_nil, Nat.sub_self]
        rw [show ([bcKey ++ ' ' :: note] : List Str).getD 0 [] =
          bcKey ++ ' ' :: note from rfl]
        rw [ltrim_eq_self (show (bcKey ++ ' ' :: note).head? = some 'B' from rfl)
          (by decide)]
        exact isPre_append_self bcKey (' ' :: note))
      (by
        intro i hi
        simp only [List.length_cons, List.length_nil] at hi
        omega)
    simpa using h
  simp only [splitBodyAndBreakingFooter]
  rw [hidx, if_neg (by simp), if_neg (by simp)]
  rw [show ([bcKey ++ ' ' :: note] : List Str).getLast? =
    some (bcKey ++ ' ' :: note) from rfl]
  simp only [Option.getD_some]
  rw [footerNote_canonical hnote hnne, if_neg hnne, if_pos (by simp)]

theorem body_text_facts {b : CommitBody} (hbd : CommitBody.fromStr b.text = .ok b) :
    trim b.text = b.text ∧ b.text ≠ [] ∧
    (∀ l ∈ rsLines b.text, l = [] ∨ utf8Len l ≤ BODY_LINE_MAX_LEN) ∧
    rsLines b.text = (splitLF b.text).map stripCR := by
  obtain ⟨htext, hne, hbounds⟩ := body_fromStr_ok_inv hbd
  have htr : trim b.text = b.text := htext.symm
  have hbne : b.text ≠ [] := by rw [htext]; exact hne
  have hlastws : ∀ c, b.text.getLast? = some c → isRustWs c = false := by
    intro c hc
    obtain ⟨ys, hys⟩ := List.getLast?_eq_some_iff.mp hc
    exact trim_getLast_not_ws (htr.trans hys)
  refine ⟨htr, hbne, ?_, rsLines_eq_map_stripCR hbne hlastws⟩
  intro l hl
  exact hbounds l (by rwa [htr])

/-! ## Claim C1: validate after compose, corrected -/

/-- C1 counterexample to the claim as stated: every component is
successfully constructed, no breaking note is passed anywhere (so the bang
matches the note), yet the composed message fails validation with
`MessageBreakingFooterMissingBang`, because the body's own line starts with
`BREAKING CHANGE:` and the validator reads it as a breaking footer that the
bang-less subject cannot carry. -/
theorem compose_validate_counterexample :
    CommitSummary.fromStr ("Hi".data) = .ok ⟨"Hi".data⟩ ∧
    CommitBody.fromStr ("BREAKING CHANGE: x".data) = .ok ⟨"BREAKING CHANGE: x".data⟩ ∧
    CommitSubject.new .fix none ⟨"Hi".data⟩ none = .ok ⟨"fix: Hi".data⟩ ∧
    validateCommitMessage
        (newCommitMessage ⟨"fix: Hi".data⟩ (some ⟨"BREAKING CHANGE: x".data⟩) none) =
      .error .messageBreakingFooterMissingBang := by decide

/-- C1 (amended): for every successfully constructed summary, optional
scope, optional body, and optional breaking note (each a fixed point of its
constructor), with the subject assembled by `CommitSubject::new` from the
same components (so the bang is present exactly when the note is passed,
and note-presence in composition matches note-presence in subject
construction), validating the composed message succeeds PROVIDED that the
scope contains no `": "` and that no line of the body left-trims to a
`BREAKING CHANGE:` prefix; without those two provisos the claim fails. -/
theorem compose_validate_ok (ct : CommitType) (sc : Option CommitScope)
    (su : CommitSummary) (body : Option CommitBody) (nt : Option BreakingNote)
    (subj : CommitSubject)
    (hsu : CommitSummary.fromStr su.text = .ok su)
    (hsc : ∀ s, sc = some s → CommitScope.fromStr s.text = .ok s)
    (hscp : ∀ s, sc = some s → containsStr (": ".data) s.text = false)
    (hbd : ∀ b, body = some b → CommitBody.fromStr b.text = .ok b)
    (hbc : ∀ b, body = some b → ∀ l ∈ rsLines b.text,
      isPre bcKey (ltrim l) = false)
    (hnt : ∀ n, nt = some n → BreakingNote.fromStr n.text = .ok n)
    (hsubj : CommitSubject.new ct sc su nt = .ok subj) :
    validateCommitMessage (newCommitMessage subj body nt) = .ok () := by
  obtain ⟨hstx, hlen⟩ := subjectNew_ok_inv hsubj
  obtain ⟨hsttr, hstnl, hsthash, hstblank, hstcr, hstne⟩ :=
    subject_line_facts ct sc su nt.isSome hsu hsc
  have hstrS : trim subj.text = subj.text := by rw [hstx]; exact hsttr
  have hnaS : isAutosquashSubject (trim subj.text) = false := by
    rw [hstrS, hstx]
    exact isAutosquash_subjectText ct sc su nt.isSome
  have hpsS : parseSubjectLine (trim subj.text) =
      .ok (ct, sc.map (fun s => s.text), su, nt.isSome) := by
    rw [hstrS, hstx]
    exact parseSubject_canonical ct sc su nt.isSome hsu hsc hscp
  have hvlS : validateSubjectLength (trim subj.text) su.text = .ok () := by
    rw [hstrS, hstx, validateSubjectLength, if_pos hlen]
  have hSnl : '\n' ∉ subj.text := by rw [hstx]; exact hstnl
  have hSne : subj.text ≠ [] := by rw [hstx]; exact hstne
  have hScr : subj.text.getLast? ≠ some '\r' := by rw [hstx]; exact hstcr
  have hSblank : isBlankL subj.text = false := by rw [hstx]; exact hstblank
  have hSkeep : (!(subj.text.head? == some '#')) = true := by
    rw [beq_eq_false_iff_ne.mpr (by rw [hstx]; exact hsthash)]
    rfl
  have hEkeep : (!((([] : Str)).head? == some '#')) = true := by decide
  have htsc : transposeScope (sc.map (fun s => s.text)) = .ok sc := by
    cases sc with
    | none => rfl
    | some s =>
      simp only [Option.map_some', transposeScope, hsc s rfl]
  have hrebuild : rebuildSubject ct (sc.map (fun s => s.text)) su
      (nt.map (fun n => n.text)) = .ok () := by
    have htnt : transposeNote (nt.map (fun n => n.text)) = .ok nt := by
      cases nt with
      | none => rfl
      | some n =>
        simp only [Option.map_some', transposeNote, hnt n rfl]
    simp only [rebuildSubject, htsc, htnt, hsubj]
  cases body with
  | none =>
    cases nt with
    | none =>
      have hlines : rsLines (newCommitMessage subj none none) = [subj.text] := by
        rw [show newCommitMessage subj none none = subj.text from rfl]
        exact rsLines_single hSnl hSne
      have hp : processedLines (newCommitMessage subj none none) = [subj.text] := by
        simp only [processedLines]
        rw [hlines,
          List.filter_eq_self.mpr (by
            intro a ha
            simp only [List.mem_singleton] at ha
            subst ha
            exact hSkeep),
          List.dropWhile_cons, if_neg (by rw [hSblank]; decide)]
        exact dropTrailingBlanks_of_last_not_blank rfl hSblank
      rw [validate_eval (newCommitMessage subj none none) subj.text [] ct
        (sc.map (fun s => s.text)) su false hp hnaS hpsS hvlS]
      rfl
    | some n =>
      obtain ⟨hntext, hnne0, hnnl0, hnnr0⟩ := note_fromStr_ok_inv (hnt n rfl)
      have hntr : trim n.text = n.text := hntext.symm
      have hnne : n.text ≠ [] := by rw [hntext]; exact hnne0
      have hnnl : '\n' ∉ n.text := by rw [hntext]; exact hnnl0
      obtain ⟨hfnl, hfhead, hfblank, hfne, hfpre⟩ := footer_facts hnne hnnl
      have hFkeep : (!((bcKey ++ ' ' :: n.text).head? == some '#')) = true := by
        rw [hfhead]
        decide
      have hmsg : newCommitMessage subj none (some n) =
          subj.text ++ '\n' :: '\n' :: (bcKey ++ ' ' :: n.text) := by
        simp [newCommitMessage, joinSep, List.append_assoc]
      have hlines : rsLines (newCommitMessage subj none (some n)) =
          [subj.text, [], bcKey ++ ' ' :: n.text] := by
        have e2 := rsLines_append [] (bcKey ++ ' ' :: n.text)
        rw [List.nil_append] at e2
        rw [hmsg, rsLines_append, e2, splitLF_no_lf hSnl,
          rsLines_single hfnl hfne,
          show splitLF ([] : Str) = [[]] from rfl]
        simp [stripCR_eq_self hScr, show stripCR ([] : Str) = [] from rfl]
      have hp : processedLines (newCommitMessage subj none (some n)) =
          [subj.text, [], bcKey ++ ' ' :: n.text] := by
        simp only [processedLines]
        rw [hlines,
          List.filter_eq_self.mpr (by
            intro a ha
            rcases List.mem_cons.mp ha with ha | ha
            · subst ha; exact hSkeep
            · rcases List.mem_cons.mp ha with ha | ha
              · subst ha; exact hEkeep
              · simp only [List.mem_singleton] at ha
                subst ha
                exact hFkeep),
          List.dropWhile_cons, if_neg (by rw [hSblank]; decide)]
        exact dropTrailingBlanks_of_last_not_blank rfl hfblank
      rw [validate_eval (newCommitMessage subj none (some n)) subj.text
        [[], bcKey ++ ' ' :: n.text] ct (sc.map (fun s => s.text)) su true
        hp hnaS hpsS hvlS]
      simp only []
      rw [if_neg (by decide), if_neg (by simp)]
      simp only [splitBodyFooter_footer_only hntr hnne]
      simp only [crossCheckAndFinish]
      rw [if_pos trivial]
      simp only [hnt n rfl]
      rw [validateBodyAndRebuild.eq_def, if_neg (by decide)]
      exact hrebuild
  | some b =>
    obtain ⟨hbtr, hbne, hbounds, hbmap⟩ := body_text_facts (hbd b rfl)
    have hfbsub : ∀ l ∈ (rsLines b.text).filter
        (fun l => !(l.head? == some '#')), l ∈ rsLines b.text := by
      intro l hl
      exact (List.mem_filter.mp hl).1
    have hfbnoBC : ∀ l ∈ (rsLines b.text).filter
        (fun l => !(l.head? == some '#')), isPre bcKey (ltrim l) = false := by
      intro l hl
      exact hbc b rfl l (hfbsub l hl)
    have hfbnolf : ∀ l ∈ (rsLines b.text).filter
        (fun l => !(l.head? == some '#')), '\n' ∉ l := by
      intro l hl
      exact mem_rsLines_no_lf (hfbsub l hl)
    have hfbbound : ∀ l ∈ (rsLines b.text).filter
        (fun l => !(l.head? == some '#')), l = [] ∨ utf8Len l ≤ BODY_LINE_MAX_LEN := by
      intro l hl
      exact hbounds l (hfbsub l hl)
    cases nt with
    | none =>
      have hmsg : newCommitMessage subj (some b) none =
          subj.text ++ '\n' :: '\n' :: b.text := by
        simp [newCommitMessage, joinSep, List.append_assoc]
      have hlines : rsLines (newCommitMessage subj (some b) none) =
          subj.text :: [] :: rsLines b.text := by
        have e2 := rsLines_append [] b.text
        rw [List.nil_append] at e2
        rw [hmsg, rsLines_append, e2, splitLF_no_lf hSnl,
          show splitLF ([] : Str) = [[]] from rfl]
        simp [stripCR_eq_self hScr, show stripCR ([] : Str) = [] from rfl]
      have hkept : (rsLines (newCommitMessage subj (some b) none)).filter
          (fun l => !(l.head? == some '#')) =
          subj.text :: [] ::
            (rsLines b.text).filter (fun l => !(l.head? == some '#')) := by
        rw [hlines]
        simp only [List.filter_cons, hSkeep, hEkeep, if_true]
      cases hfb0 : dropTrailingBlanks
          ((rsLines b.text).filter (fun l => !(l.head? == some '#'))) with
      | nil =>
        have hinner : dropTrailingBlanks (([] : Str) ::
            (rsLines b.text).filter (fun l => !(l.head? == some '#'))) = [] := by
          rw [show (([] : Str) ::
              (rsLines b.text).filter (fun l => !(l.head? == some '#'))) =
              [([] : Str)] ++
                (rsLines b.text).filter (fun l => !(l.head? == some '#')) from rfl,
            dropTrailingBlanks_append, hfb0, if_pos rfl]
          decide
        have hp : processedLines (newCommitMessage subj (some b) none) =
            [subj.text] := by
          simp only [processedLines]
          rw [hkept, List.dropWhile_cons, if_neg (by rw [hSblank]; decide)]
          rw [show (subj.text :: ([] : Str) ::
              (rsLines b.text).filter (fun l => !(l.head? == some '#'))) =
              [subj.text] ++ (([] : Str) ::
                (rsLines b.text).filter (fun l => !(l.head? == some '#'))) from rfl,
            dropTrailingBlanks_append, hinner, if_pos rfl]
          exact dropTrailingBlanks_of_last_not_blank rfl hSblank
        rw [validate_eval (newCommitMessage subj (some b) none) subj.text [] ct
          (sc.map (fun s => s.text)) su false hp hnaS hpsS hvlS]
        rfl
      | cons f0 fb' =>
        have hinner : dropTrailingBlanks (([] : Str) ::
            (rsLines b.text).filter (fun l => !(l.head? == some '#'))) =
            [] :: f0 :: fb' := by
          rw [show (([] : Str) ::
              (rsLines b.text).filter (fun l => !(l.head? == some '#'))) =
              [([] : Str)] ++
                (rsLines b.text).filter (fun l => !(l.head? == some '#')) from rfl,
            dropTrailingBlanks_append, hfb0, if_neg (by simp)]
          rfl
        have hp : processedLines (newCommitMessage subj (some b) none) =
            subj.text :: [] :: f0 :: fb' := by
          simp only [processedLines]
          rw [hkept, List.dropWhile_cons, if_neg (by rw [hSblank]; decide)]
          rw [show (subj.text :: ([] : Str) ::
              (rsLines b.text).filter (fun l => !(l.head? == some '#'))) =
              [subj.text] ++ (([] : Str) ::
                (rsLines b.text).filter (fun l => !(l.head? == some '#'))) from rfl,
            dropTrailingBlanks_append, hinner, if_neg (by simp)]
          rfl
        have hdtbmem : ∀ l ∈ f0 :: fb',
            l ∈ (rsLines b.text).filter (fun l => !(l.head? == some '#')) := by
          intro l hl
          rw [← hfb0] at hl
          exact (dropTrailingBlanks_sublist _).subset hl
        rw [validate_eval (newCommitMessage subj (some b) none) subj.text
          ([] :: f0 :: fb') ct (sc.map (fun s => s.text)) su false
          hp hnaS hpsS hvlS]
        simp only []
        rw [if_neg (by decide), if_neg (by simp)]
        simp only [splitBodyFooter_none
          (fun l hl => hfbnoBC l (hdtbmem l hl))]
        simp only [crossCheckAndFinish]
        rw [if_neg (by decide)]
        have hnb : hasNonEmptyBody (f0 :: fb') = true := by
          rw [← hfb0]
          exact dropTrailingBlanks_nonblank (by rw [hfb0]; simp)
        rw [validateBodyAndRebuild.eq_def, if_pos hnb]
        simp only [body_join_ok (by simp) (fun l hl => hfbnolf l (hdtbmem l hl))
          hnb (fun l hl => hfbbound l (hdtbmem l hl))]
        exact hrebuild
    | some n =>
      obtain ⟨hntext, hnne0, hnnl0, hnnr0⟩ := note_fromStr_ok_inv (hnt n rfl)
      have hntr : trim n.text = n.text := hntext.symm
      have hnne : n.text ≠ [] := by rw [hntext]; exact hnne0
      have hnnl : '\n' ∉ n.text := by rw [hntext]; exact hnnl0
      obtain ⟨hfnl, hfhead, hfblank, hfne, hfpre⟩ := footer_facts hnne hnnl
      have hFkeep : (!((bcKey ++ ' ' :: n.text).head? == some '#')) = true := by
        rw [hfhead]
        decide
      have hmsg : newCommitMessage subj (some b) (some n) =
          subj.text ++ '\n' :: '\n' ::
            (b.text ++ '\n' :: '\n' :: (bcKey ++ ' ' :: n.text)) := by
        simp [newCommitMessage, joinSep, List.append_assoc]
      have hlines : rsLines (newCommitMessage subj (some b) (some n)) =
          subj.text :: [] ::
            (rsLines b.text ++ [[], bcKey ++ ' ' :: n.text]) := by
        have e2 := rsLines_append []
          (b.text ++ '\n' :: '\n' :: (bcKey ++ ' ' :: n.text))
        rw [List.nil_append] at e2
        have e4 := rsLines_append [] (bcKey ++ ' ' :: n.text)
        rw [List.nil_append] at e4
        rw [hmsg, rsLines_append, e2, rsLines_append, e4,
          splitLF_no_lf hSnl, rsLines_single hfnl hfne,
          show splitLF ([] : Str) = [[]] from rfl, ← hbmap]
        simp [stripCR_eq_self hScr, show stripCR ([] : Str) = [] from rfl]
      have hkept : (rsLines (newCommitMessage subj (some b) (some n))).filter
          (fun l => !(l.head? == some '#')) =
          subj.text :: [] ::
            ((rsLines b.text).filter (fun l => !(l.head? == some '#')) ++
              [[], bcKey ++ ' ' :: n.text]) := by
        rw [hlines]
        simp only [List.filter_cons, List.filter_append, hSkeep, hEkeep,
          hFkeep, if_true, List.filter_nil]
      have hlastF : (subj.text :: ([] : Str) ::
          ((rsLines b.text).filter (fun l => !(l.head? == some '#')) ++
            [[], bcKey ++ ' ' :: n.text])).getLast? =
          some (bcKey ++ ' ' :: n.text) := by
        rw [List.getLast?_cons_cons,
          show (([] : Str) ::
              ((rsLines b.text).filter (fun l => !(l.head? == some '#')) ++
                [[], bcKey ++ ' ' :: n.text])) =
            (([] : Str) ::
              (rsLines b.text).filter (fun l => !(l.head? == some '#'))) ++
                [[], bcKey ++ ' ' :: n.text] from rfl,
          List.getLast?_append]
        rfl
      have hp : processedLines (newCommitMessage subj (some b) (some n)) =
          subj.text :: [] ::
            ((rsLines b.text).filter (fun l => !(l.head? == some '#')) ++
              [[], bcKey ++ ' ' :: n.text]) := by
        simp only [processedLines]
        rw [hkept, List.dropWhile_cons, if_neg (by rw [hSblank]; decide)]
        exact dropTrailingBlanks_of_last_not_blank hlastF hfblank
      rw [validate_eval (newCommitMessage subj (some b) (some n)) subj.text
        ([] :: ((rsLines b.text).filter (fun l => !(l.head? == some '#')) ++
          [[], bcKey ++ ' ' :: n.text])) ct (sc.map (fun s => s.text)) su true
        hp hnaS hpsS hvlS]
      simp only []
      rw [if_neg (by decide), if_neg (by simp)]
      simp only [splitBodyFooter_canonical _ hfbnoBC hntr hnne]
      simp only [crossCheckAndFinish]
      rw [if_pos trivial]
      simp only [hnt n rfl]
      cases hnb : hasNonEmptyBody
          ((rsLines b.text).filter (fun l => !(l.head? == some '#'))) with
      | false =>
        rw [validateBodyAndRebuild.eq_def, if_neg (by rw [hnb]; decide)]
        exact hrebuild
      | true =>
        have hfbne : (rsLines b.text).filter (fun l => !(l.head? == some '#')) ≠ [] := by
          intro h
          rw [h] at hnb
          exact Bool.noConfusion hnb
        rw [validateBodyAndRebuild.eq_def, if_pos hnb]
        simp only [body_join_ok hfbne hfbnolf hnb hfbbound]
        exact hrebuild

/-- Witness for C1 at a concrete input: a full message with type, scope,
summary, body and breaking note composes and validates back to success. -/
theorem compose_validate_ok_witness :
    validateCommitMessage (newCommitMessage ⟨"feat(ui)!: Change API".data⟩
      (some ⟨"Old behavior is gone".data⟩) (some ⟨"Old thing removed".data⟩)) =
      .ok () :=
  compose_validate_ok .feat (some ⟨"ui".data⟩) ⟨"Change API".data⟩
    (some ⟨"Old behavior is gone".data⟩) (some ⟨"Old thing removed".data⟩)
    ⟨"feat(ui)!: Change API".data⟩
    (by decide)
    (by intro s hs; injection hs with h; subst h; decide)
    (by intro s hs; injection hs with h; subst h; decide)
    (by intro b hb; injection hb with h; subst h; decide)
    (by intro b hb; injection hb with h; subst h; decide)
    (by intro n hn; injection hn with h; subst h; decide)
    (by decide)

end GitCCR
